import Mathlib

/-!
Shallow embedding of the rss-watcher core (src/rss_watcher.py and
src/rss_watcher_fast.py): association-list state, boolean keyword matcher,
rule compilation, dedup/process loops, conditional fetch merging, and state
pruning, together with theorems settling the specification claims.
Python dictionaries are modelled as insertion-ordered association lists,
machine strings as Lean strings (the repository's rule/text handling is
ASCII-oriented), and timestamps as integers.
-/

namespace RSSW

/-- Dictionary lookup on an insertion-ordered association list
(Python `d.get(k)` / `k in d`). -/
def lookupA {α : Type} (k : String) : List (String × α) → Option α
  | [] => none
  | p :: m => if p.1 == k then some p.2 else lookupA k m

/-- Dictionary assignment `d[k] = v`: update in place when the key exists,
append at the end otherwise (Python dict insertion-order semantics). -/
def insertA {α : Type} (k : String) (v : α) (m : List (String × α)) : List (String × α) :=
  if (lookupA k m).isSome then
    m.map (fun p => if p.1 == k then (k, v) else p)
  else
    m ++ [(k, v)]

/-- ASCII whitespace, as matched by Python `str.strip` / `\S`. -/
def pySpace (c : Char) : Bool :=
  c == ' ' || c == '\t' || c == '\n' || c == '\r' || c == Char.ofNat 11 || c == Char.ofNat 12

/-- Python `str.lower()` (ASCII fragment). -/
def pyLower (s : String) : String := String.mk (s.toList.map Char.toLower)

/-- Python `str.upper()` (ASCII fragment). -/
def pyUpper (s : String) : String := String.mk (s.toList.map Char.toUpper)

/-- Drop characters satisfying `p` from both ends (Python `str.strip(chars)`). -/
def stripEndsWhile (p : Char → Bool) (cs : List Char) : List Char :=
  ((cs.dropWhile p).reverse.dropWhile p).reverse

/-- Python `s.strip()`. -/
def pyStrip (s : String) : String := String.mk (stripEndsWhile pySpace s.toList)

/-- Python `s.strip(String.mk [quote])` with the double-quote character. -/
def stripQuotes (s : String) : String :=
  String.mk (stripEndsWhile (fun c => c == '"') s.toList)

/-- `startsChars n h`: `n` is an initial segment of `h`. -/
def startsChars : List Char → List Char → Bool
  | [], _ => true
  | _ :: _, [] => false
  | a :: as, b :: bs => a == b && startsChars as bs

/-- `containsChars n h`: `n` occurs contiguously inside `h`
(Python `n in h` on strings). -/
def containsChars (n : List Char) : List Char → Bool
  | [] => n.isEmpty
  | c :: cs => startsChars n (c :: cs) || containsChars n cs

/-- Python substring test `needle in hay`. -/
def pyIn (needle hay : String) : Bool := containsChars needle.toList hay.toList

/-- A conjunction of lowercase terms (one AND group). -/
abbrev AndGroup := List String

/-- One rule line: a disjunction of AND groups. -/
abbrev Clause := List AndGroup

/-- The compiled rule set: a disjunction of clauses. -/
abbrev Rules := List Clause

/-- `text_matches` from src/rss_watcher_fast.py (identical to
`text_matches_rules` in src/rss_watcher.py): an empty rule set matches
everything; otherwise lowercase the text once and look for a clause with an
AND group all of whose terms occur as substrings. -/
def text_matches (text : String) (rules : Rules) : Bool :=
  if rules.isEmpty then true
  else
    let s := pyLower text
    rules.any (fun clause => clause.any (fun group => group.all (fun term => pyIn term s)))

/-- One step of Python `re.findall` with pattern
quoted-phrase-or-nonspace-run: at a position starting with a double quote,
try to match a quoted phrase (at least one non-quote character between two
quotes), returning the token including its quotes and the rest. -/
def quotedTok (cs : List Char) : Option (List Char × List Char) :=
  match cs with
  | '"' :: rest =>
    let inner := rest.takeWhile (fun c => !(c == '"'))
    match rest.dropWhile (fun c => !(c == '"')) with
    | '"' :: tail => if inner.isEmpty then none else some ('"' :: (inner ++ ['"']), tail)
    | _ => none
  | _ => none

/-- Fuelled scanner for the rule-line tokenizer: skip whitespace; at a
double quote prefer a full quoted phrase; otherwise take the maximal run of
non-whitespace characters. Fuel bounds the recursion by the input length. -/
def tokenizeAux : Nat → List Char → List (List Char)
  | 0, _ => []
  | _, [] => []
  | fuel + 1, c :: cs =>
    if pySpace c then tokenizeAux fuel cs
    else
      match quotedTok (c :: cs) with
      | some (tok, rest) => tok :: tokenizeAux fuel rest
      | none =>
        ((c :: cs).takeWhile (fun x => !pySpace x)) ::
          tokenizeAux fuel ((c :: cs).dropWhile (fun x => !pySpace x))

/-- The tokenizer of a rule line, Python
`re.findall` with the quoted-phrase-or-nonspace pattern. -/
def tokenize (cs : List Char) : List (List Char) := tokenizeAux cs.length cs

/-- Is the token the (case-insensitive) `OR` operator? -/
def isOpOR (t : String) : Bool := pyUpper t == "OR"

/-- Is the token the (case-insensitive) `AND` operator? -/
def isOpAND (t : String) : Bool := pyUpper t == "AND"

/-- The token loop of `parse_rules`: `OR` closes a non-empty current group,
`AND` is skipped, any other token is lowercased, quote-stripped and appended
to the current group; at the end a non-empty group is closed. -/
def lineClauseAux : List String → List AndGroup → AndGroup → List AndGroup
  | [], clause, group => if group.isEmpty then clause else clause ++ [group]
  | tok :: rest, clause, group =>
    if isOpOR tok then
      if group.isEmpty then lineClauseAux rest clause group
      else lineClauseAux rest (clause ++ [group]) []
    else if isOpAND tok then
      lineClauseAux rest clause group
    else
      lineClauseAux rest clause (group ++ [pyLower (stripQuotes tok)])

/-- The tokens of a rule line after stripping surrounding whitespace. -/
def lineTokens (raw : String) : List String :=
  (tokenize (pyStrip raw).toList).map (fun cs => String.mk cs)

/-- Python `s.startswith(String.mk [hash])`: does the string begin with the
comment character? -/
def startsHash (s : String) : Bool :=
  match s.toList with
  | c :: _ => c == '#'
  | [] => false

/-- The clauses contributed by one input line: none for blank or comment
lines and for lines whose token loop produces no group, otherwise exactly
the one clause built by the token loop. -/
def lineContribution (raw : String) : Rules :=
  let s := pyStrip raw
  if s == "" || startsHash s then []
  else
    let clause := lineClauseAux (lineTokens raw) [] []
    if clause.isEmpty then [] else [clause]

/-- `parse_rules` from src/rss_watcher_fast.py (same logic as the loop in
src/rss_watcher.py): fold the per-line contributions in order. -/
def parse_rules (lines : List String) : Rules :=
  lines.foldl (fun rules raw => rules ++ lineContribution raw) []

/-- A parsed feed entry as the watcher reads it from the external parser.
Python's falsy test on a missing or empty string field is modelled by the
empty string; `publishedParsed` is the `published_parsed` time converted by
`mktime` to a Unix timestamp, `none` when the publish time is unparseable. -/
structure Entry where
  id : String
  guid : String
  link : String
  title : String
  published : String
  publishedParsed : Option Int
  summary : String
  description : String
deriving DecidableEq, Repr

/-- Stand-in for the hex digest of the external `hashlib.sha1` library call:
every claim depends only on this being a deterministic function of its
input, so it is modelled as the identity encoding. -/
def sha1hex (s : String) : String := s

/-- `norm_id` from both watcher files: the entry fingerprint, preferring
`id`, then `guid`, then `link`, falling back to a hash of
title, link and published string. -/
def norm_id (e : Entry) : String :=
  if e.id != "" then e.id
  else if e.guid != "" then e.guid
  else if e.link != "" then e.link
  else "h:" ++ sha1hex (e.title ++ "|" ++ e.link ++ "|" ++ e.published)

/-- The text handed to the matcher: title, newline, then summary with
description as fallback (Python `e.get(...) or ...`). -/
def entryText (e : Entry) : String :=
  e.title ++ "\n" ++ (if e.summary != "" then e.summary else e.description)

/-- Per-feed dedup store: fingerprint to last-matched timestamp,
insertion-ordered (a Python dict). -/
abbrev FeedSeen := List (String × Int)

/-- The persisted dedup state: per-feed seen maps plus the last-run stamp. -/
structure WatchState where
  seen : List (String × FeedSeen)
  last_run : Int
deriving DecidableEq, Repr

/-- One feed endpoint together with the entry list the external parser
produced for it this run; `none` models a parse failure. -/
structure Feed where
  url : String
  entries : Option (List Entry)
deriving Repr

/-- The inner entry loop of `process` in src/rss_watcher.py: skip entries
already seen, evaluate the matcher on the rest, and on a match collect the
hit and mark the fingerprint seen immediately with the current timestamp. -/
def processEntries (rules : Rules) (now : Int) :
    List Entry → FeedSeen → FeedSeen × List (Entry × String)
  | [], fs => (fs, [])
  | e :: rest, fs =>
    let i := norm_id e
    if (lookupA i fs).isSome then processEntries rules now rest fs
    else if text_matches (entryText e) rules then
      let step := processEntries rules now rest (insertA i now fs)
      (step.1, (e, i) :: step.2)
    else processEntries rules now rest fs

/-- The feed loop of `process` in src/rss_watcher.py: skip feeds that fail
to parse or have no entries, otherwise run the entry loop against that
feed's seen map and write the updated map back. -/
def processGo (rules : Rules) (now : Int) :
    List Feed → List (String × FeedSeen) →
    List (String × FeedSeen) × List (String × Entry × String)
  | [], seen => (seen, [])
  | f :: rest, seen =>
    match f.entries with
    | none => processGo rules now rest seen
    | some es =>
      if es.isEmpty then processGo rules now rest seen
      else
        let step := processEntries rules now es ((lookupA f.url seen).getD [])
        let next := processGo rules now rest (insertA f.url step.1 seen)
        (next.1, step.2.map (fun p => (f.url, p.1, p.2)) ++ next.2)

/-- `process` from src/rss_watcher.py, with the HTML rendering (external
notifier concern) elided: returns the updated state and the list of
(feed, entry, fingerprint) hits in order. -/
def process (feeds : List Feed) (rules : Rules) (st : WatchState) (now : Int) :
    WatchState × List (String × Entry × String) :=
  let r := processGo rules now feeds st.seen
  ({ st with seen := r.1 }, r.2)

/-- The age test inlined in `main_async` of src/rss_watcher_fast.py: an
entry is too old when its publish time parsed and is strictly before the
cutoff; an entry without a parseable publish time is never too old. -/
def isOld (e : Entry) (cutoff : Int) : Bool :=
  match e.publishedParsed with
  | some ts => decide (ts < cutoff)
  | none => false

/-- The outcome of the per-entry checks of `main_async` in
src/rss_watcher_fast.py. -/
inductive EntryVerdict where
  | skippedSeen
  | skippedOld
  | noMatch
  | hit
deriving DecidableEq, Repr

/-- The per-entry decision of `main_async` in src/rss_watcher_fast.py, in
the source's order: dedup check first, then the age filter, then the
matcher. -/
def fastEntryVerdict (rules : Rules) (cutoff : Int) (e : Entry) (fs : FeedSeen) : EntryVerdict :=
  if (lookupA (norm_id e) fs).isSome then .skippedSeen
  else if isOld e cutoff then .skippedOld
  else if text_matches (entryText e) rules then .hit
  else .noMatch

/-- The inner entry loop of `main_async` in src/rss_watcher_fast.py: on a
hit, mark the fingerprint seen with the current timestamp and collect; on
any other verdict, leave the state untouched and move on. -/
def fastProcessEntries (rules : Rules) (cutoff now : Int) :
    List Entry → FeedSeen → FeedSeen × List (Entry × String)
  | [], fs => (fs, [])
  | e :: rest, fs =>
    match fastEntryVerdict rules cutoff e fs with
    | .hit =>
      let step := fastProcessEntries rules cutoff now rest (insertA (norm_id e) now fs)
      (step.1, (e, norm_id e) :: step.2)
    | _ => fastProcessEntries rules cutoff now rest fs

/-- A JSON-ish cache value: the `cache.json` records hold strings, integers
and `None`. -/
inductive JVal where
  | s (v : String)
  | n (v : Int)
  | null
deriving DecidableEq, Repr

/-- A per-endpoint cache record, a Python dict. -/
abbrev MetaDict := List (String × JVal)

/-- Python `d = dict(old); d.update(upd)` — the dict merge
spelled as a double-splat in `main_async`. -/
def dictMerge (old upd : MetaDict) : MetaDict :=
  upd.foldl (fun acc kv => insertA kv.1 kv.2 acc) old

/-- What the server answered for one endpoint this run: a 304 confirmation,
a body with fresh validators, or a network error/timeout. -/
inductive ServerResp where
  | notModified
  | ok (finalUrl : String) (body : List Nat) (etag lastModified : Option String) (status : Int)
  | netError (msg : String)

/-- `fetch_feed` from src/rss_watcher_fast.py as a pure function of the
server's answer: on 304 return no content and the previously cached record;
on success return the body plus a fresh record with the response validators,
fetch time and status; on error return no content and a record holding only
the error text and fetch time. -/
def fetch_feed (url : String) (cache : List (String × MetaDict)) (resp : ServerResp)
    (now : Int) : String × List Nat × MetaDict :=
  let meta := (lookupA url cache).getD []
  match resp with
  | .notModified => (url, [], meta)
  | .ok finalUrl body etag lm status =>
    (finalUrl, body,
      [("etag", match etag with | some v => .s v | none => .null),
       ("last_modified", match lm with | some v => .s v | none => .null),
       ("fetched_at", .n now),
       ("status", .n status)])
  | .netError msg => (url, [], [("error", .s msg), ("fetched_at", .n now)])

/-- The cache commit of `main_async`:
`cache[orig] = dict-merge of the old record and the fetch meta`. -/
def mergeCache (cache : List (String × MetaDict)) (orig : String) (meta : MetaDict) :
    List (String × MetaDict) :=
  insertA orig (dictMerge ((lookupA orig cache).getD []) meta) cache

/-- The sequential merge loop of `main_async` over the gathered fetch
results: commit each endpoint's cache record, skip endpoints with no
content (304 or error) or unparseable/empty feeds, and run the entry loop
on the rest. -/
def fastGo (parse : List Nat → Option (List Entry)) (rules : Rules) (cutoff now : Int) :
    List (String × String × List Nat × MetaDict) →
    List (String × FeedSeen) → List (String × MetaDict) →
    List (String × FeedSeen) × List (String × MetaDict) × List (String × Entry × String)
  | [], seen, cache => (seen, cache, [])
  | (orig, _finalUrl, content, meta) :: rest, seen, cache =>
    let cache1 := mergeCache cache orig meta
    if content.isEmpty then fastGo parse rules cutoff now rest seen cache1
    else
      match parse content with
      | none => fastGo parse rules cutoff now rest seen cache1
      | some es =>
        if es.isEmpty then fastGo parse rules cutoff now rest seen cache1
        else
          let step := fastProcessEntries rules cutoff now es ((lookupA orig seen).getD [])
          let next := fastGo parse rules cutoff now rest (insertA orig step.1 seen) cache1
          (next.1, next.2.1, step.2.map (fun p => (orig, p.1, p.2)) ++ next.2.2)

/-- `main_async` from src/rss_watcher_fast.py as a pure function: the
parallel fetch phase reads the pre-run cache for every endpoint and fully
completes, then the single-threaded merge loop commits cache records,
filters, matches and mutates the dedup state. Returns the updated state,
the updated cache and the hits. -/
def main_async (feeds : List String) (respOf : String → ServerResp)
    (parse : List Nat → Option (List Entry)) (rules : Rules)
    (st : WatchState) (cache : List (String × MetaDict)) (now cutoff : Int) :
    WatchState × List (String × MetaDict) × List (String × Entry × String) :=
  let results := feeds.map (fun u => (u, fetch_feed u cache (respOf u) now))
  let r := fastGo parse rules cutoff now results st.seen cache
  ({ st with seen := r.1 }, r.2.1, r.2.2)

/-- The per-feed body of `prune_state` in src/rss_watcher.py: drop
fingerprints older than the cutoff, and if more than the cap remain keep
the newest cap many by timestamp (stable descending sort, then truncate). -/
def pruneFeed (cutoff : Int) (cap : Nat) (items : FeedSeen) : FeedSeen :=
  let kept := items.filter (fun kv => decide (cutoff ≤ kv.2))
  if cap < kept.length then
    (kept.mergeSort (fun a b => decide (b.2 ≤ a.2))).take cap
  else kept

/-- `prune_state` from src/rss_watcher.py: apply the per-feed eviction to
every feed's seen map. `cutoff` is now minus the retention window in
seconds and `cap` is the per-feed fingerprint capacity. -/
def prune_state (cutoff : Int) (cap : Nat) (st : WatchState) : WatchState :=
  { st with seen := st.seen.map (fun p => (p.1, pruneFeed cutoff cap p.2)) }

/-- The marking loop of the first-contact branch of `main` in
src/rss_watcher.py: record every entry's fingerprint with the current
timestamp. -/
def markEntries (now : Int) (es : List Entry) (fs : FeedSeen) : FeedSeen :=
  es.foldl (fun acc e => insertA (norm_id e) now acc) fs

/-- The feed loop of the first-contact branch of `main` in
src/rss_watcher.py: for every feed that parses to a non-empty entry list,
mark all its entries seen; parse failures are skipped. -/
def initSeen (feeds : List Feed) (now : Int) (seen : List (String × FeedSeen)) :
    List (String × FeedSeen) :=
  feeds.foldl
    (fun acc f =>
      match f.entries with
      | none => acc
      | some es =>
        if es.isEmpty then acc
        else insertA f.url (markEntries now es ((lookupA f.url acc).getD [])) acc)
    seen

/-- `main` from src/rss_watcher.py as a pure function of the parsed feeds:
on first contact (`last_run = 0`) with `STATE_INIT_IF_EMPTY` enabled,
record every entry as seen, stamp `last_run`, prune and return with no
notification; otherwise process, stamp, prune, and notify exactly when
there are hits (the notification carries the hit count). -/
def mainRun (feeds : List Feed) (rules : Rules) (st : WatchState) (initFlag : Bool)
    (now cutoff : Int) (cap : Nat) : WatchState × Option Nat :=
  if st.last_run = 0 ∧ initFlag = true then
    (prune_state cutoff cap { seen := initSeen feeds now st.seen, last_run := now }, none)
  else
    let r := process feeds rules st now
    (prune_state cutoff cap { r.1 with last_run := now },
      if 0 < r.2.length then some r.2.length else none)

/-! ### Association-list lemmas -/

theorem lookupA_isSome_of_mem {α : Type} {k : String} {v : α} {m : List (String × α)} :
    (k, v) ∈ m → (lookupA k m).isSome = true := by
  induction m with
  | nil => intro h; simp at h
  | cons p rest ih =>
    intro h
    by_cases hk : p.1 == k
    · simp [lookupA, hk]
    · simp only [lookupA, hk, if_false, Bool.false_eq_true]
      rcases List.mem_cons.mp h with h1 | h2
      · exact absurd (by simp [← h1]) hk
      · exact ih h2

theorem lookupA_eq_some_mem {α : Type} {k : String} {v : α} {m : List (String × α)} :
    lookupA k m = some v → (k, v) ∈ m := by
  induction m with
  | nil => intro h; simp [lookupA] at h
  | cons p rest ih =>
    intro h
    by_cases hk : p.1 == k
    · simp only [lookupA, hk, if_true] at h
      have hpk : p.1 = k := by simpa using hk
      have : p = (k, v) := by
        rcases p with ⟨a, b⟩
        simp only at hpk h
        simp [hpk, Option.some_inj.mp h]
      exact this ▸ List.mem_cons_self p rest
    · simp only [lookupA, hk, Bool.false_eq_true, if_false] at h
      exact List.mem_cons_of_mem _ (ih h)

theorem lookupA_eq_none_not_mem {α : Type} {k : String} {m : List (String × α)} :
    lookupA k m = none → ∀ v, (k, v) ∉ m := by
  intro h v hmem
  have := lookupA_isSome_of_mem hmem
  simp [h] at this

theorem lookupA_cons {α : Type} (k : String) (p : String × α) (m : List (String × α)) :
    lookupA k (p :: m) = if p.1 == k then some p.2 else lookupA k m := rfl

theorem lookupA_map_update {α : Type} (k k' : String) (v : α) (m : List (String × α)) :
    lookupA k' (m.map (fun p => if p.1 == k then (k, v) else p)) =
      if k' = k then ((lookupA k m).map (fun _ => v)) else lookupA k' m := by
  induction m with
  | nil => by_cases h : k' = k <;> simp [lookupA, h]
  | cons p rest ih =>
    simp only [List.map_cons]
    by_cases hk : k' = k
    · subst hk
      rw [if_pos rfl] at ih ⊢
      by_cases hp : (p.1 == k') = true
      · rw [if_pos hp, lookupA_cons, lookupA_cons, hp]
        simp
      · rw [if_neg hp, lookupA_cons, lookupA_cons]
        have hb : (p.1 == k') = false := by
          cases hx : (p.1 == k')
          · rfl
          · exact absurd hx hp
        rw [hb]
        simpa using ih
    · rw [if_neg hk] at ih ⊢
      by_cases hp : (p.1 == k) = true
      · rw [if_pos hp, lookupA_cons, lookupA_cons]
        have h1 : ((k : String) == k') = false := by
          simp only [beq_eq_false_iff_ne, ne_eq]
          exact fun he => hk he.symm
        have h2 : (p.1 == k') = false := by
          rw [show p.1 = k from by simpa using hp]
          exact h1
        rw [h1, h2]
        simpa using ih
      · rw [if_neg hp, lookupA_cons, lookupA_cons]
        by_cases hq : (p.1 == k') = true
        · rw [hq]; simp
        · have hb2 : (p.1 == k') = false := by
            cases hx : (p.1 == k')
            · rfl
            · exact absurd hx hq
          rw [hb2]
          simpa using ih

theorem lookupA_append_left {α : Type} {k : String} {m₁ : List (String × α)}
    (m₂ : List (String × α)) {v : α} (h : lookupA k m₁ = some v) :
    lookupA k (m₁ ++ m₂) = some v := by
  induction m₁ with
  | nil => simp [lookupA] at h
  | cons p rest ih =>
    rw [List.cons_append, lookupA_cons]
    rw [lookupA_cons] at h
    by_cases hp : (p.1 == k) = true
    · rw [if_pos hp] at h ⊢; exact h
    · rw [if_neg hp] at h ⊢; exact ih h

theorem lookupA_append_right {α : Type} {k : String} {m₁ : List (String × α)}
    (m₂ : List (String × α)) (h : lookupA k m₁ = none) :
    lookupA k (m₁ ++ m₂) = lookupA k m₂ := by
  induction m₁ with
  | nil => simp
  | cons p rest ih =>
    rw [List.cons_append, lookupA_cons]
    rw [lookupA_cons] at h
    by_cases hp : (p.1 == k) = true
    · rw [if_pos hp] at h; exact absurd h (by simp)
    · rw [if_neg hp] at h ⊢; exact ih h

theorem lookupA_insertA_self {α : Type} (k : String) (v : α) (m : List (String × α)) :
    lookupA k (insertA k v m) = some v := by
  unfold insertA
  by_cases h : (lookupA k m).isSome
  · rw [if_pos h, lookupA_map_update]
    rcases Option.isSome_iff_exists.mp h with ⟨w, hw⟩
    simp [hw]
  · have hn : lookupA k m = none := by
      cases hh : lookupA k m
      · rfl
      · simp [hh] at h
    rw [if_neg h, lookupA_append_right _ hn, lookupA_cons]
    simp [lookupA]

theorem lookupA_insertA_ne {α : Type} {k k' : String} (h : k' ≠ k) (v : α)
    (m : List (String × α)) :
    lookupA k' (insertA k v m) = lookupA k' m := by
  unfold insertA
  by_cases hs : (lookupA k m).isSome
  · rw [if_pos hs, lookupA_map_update]
    simp [h]
  · rw [if_neg hs]
    have hne : ((k : String) == k') = false := by
      simp only [beq_eq_false_iff_ne, ne_eq]
      exact fun he => h he.symm
    cases hh : lookupA k' m
    · rw [lookupA_append_right _ hh, lookupA_cons]
      simp [lookupA, hne]
    · exact lookupA_append_left _ hh

theorem lookupA_insertA_isSome_mono {α : Type} {k : String} (k' : String) (v : α)
    {m : List (String × α)} (h : (lookupA k m).isSome = true) :
    (lookupA k (insertA k' v m)).isSome = true := by
  by_cases hk : k = k'
  · subst hk; simp [lookupA_insertA_self]
  · rw [lookupA_insertA_ne (fun he => hk he) v m]; exact h

theorem lookupA_insertA_none {α : Type} {k k' : String} {v : α} {m : List (String × α)}
    (h : lookupA k (insertA k' v m) = none) : lookupA k m = none := by
  cases hh : lookupA k m
  · rfl
  · have hs : (lookupA k m).isSome = true := by rw [hh]; rfl
    have := lookupA_insertA_isSome_mono k' v hs
    simp [h] at this

theorem lookupA_map_snd {α β : Type} (g : α → β) (k : String) (m : List (String × α)) :
    lookupA k (m.map (fun p => (p.1, g p.2))) = (lookupA k m).map g := by
  induction m with
  | nil => simp [lookupA]
  | cons p rest ih =>
    rw [List.map_cons, lookupA_cons, lookupA_cons]
    by_cases hp : p.1 == k <;> simp [hp, ih]

/-! ### Substring lemmas -/

theorem startsChars_iff (n : List Char) : ∀ h : List Char,
    startsChars n h = true ↔ ∃ r, h = n ++ r := by
  induction n with
  | nil =>
    intro h
    simp [startsChars]
  | cons a as ih =>
    intro h
    cases h with
    | nil =>
      simp [startsChars]
    | cons b bs =>
      simp only [startsChars, Bool.and_eq_true, beq_iff_eq, ih]
      constructor
      · rintro ⟨hab, r, hr⟩
        exact ⟨r, by simp [hab, hr]⟩
      · rintro ⟨r, hr⟩
        rw [List.cons_append] at hr
        have h1 : b = a := by
          have := List.head_eq_of_cons_eq hr  -- may need adjust
          exact this
        have h2 : bs = as ++ r := List.tail_eq_of_cons_eq hr
        exact ⟨h1.symm, r, h2⟩

theorem containsChars_iff (n : List Char) : ∀ h : List Char,
    containsChars n h = true ↔ ∃ l r, h = l ++ n ++ r := by
  intro h
  induction h with
  | nil =>
    simp only [containsChars, List.isEmpty_iff]
    constructor
    · intro hn
      exact ⟨[], [], by simp [hn]⟩
    · rintro ⟨l, r, hr⟩
      rcases List.append_eq_nil.mp (List.append_eq_nil.mp hr.symm).1 with ⟨-, h2⟩
      exact h2
  | cons c cs ih =>
    simp only [containsChars, Bool.or_eq_true, startsChars_iff, ih]
    constructor
    · rintro (⟨r, hr⟩ | ⟨l, r, hr⟩)
      · exact ⟨[], r, by simp [hr]⟩
      · exact ⟨c :: l, r, by simp [hr]⟩
    · rintro ⟨l, r, hr⟩
      cases l with
      | nil =>
        left
        exact ⟨r, by simpa using hr⟩
      | cons x xs =>
        right
        rw [List.cons_append, List.cons_append] at hr
        exact ⟨xs, r, by
          have := List.tail_eq_of_cons_eq hr
          simpa using this⟩

/-! ### Entry-loop lemmas for src/rss_watcher.py -/

theorem processEntries_seen_mono (rules : Rules) (now : Int) (es : List Entry) :
    ∀ (fs : FeedSeen) (k : String), (lookupA k fs).isSome = true →
      (lookupA k (processEntries rules now es fs).1).isSome = true := by
  induction es with
  | nil => intro fs k h; simpa [processEntries] using h
  | cons e rest ih =>
    intro fs k h
    simp only [processEntries]
    by_cases h1 : (lookupA (norm_id e) fs).isSome = true
    · rw [if_pos h1]; exact ih fs k h
    · rw [if_neg h1]
      by_cases h2 : text_matches (entryText e) rules = true
      · rw [if_pos h2]
        exact ih _ k (lookupA_insertA_isSome_mono _ now h)
      · rw [if_neg h2]; exact ih fs k h

theorem processEntries_hits_fresh (rules : Rules) (now : Int) (es : List Entry) :
    ∀ (fs : FeedSeen) (e : Entry) (i : String),
      (e, i) ∈ (processEntries rules now es fs).2 → lookupA i fs = none := by
  induction es with
  | nil => intro fs e i h; simp [processEntries] at h
  | cons e0 rest ih =>
    intro fs e i h
    simp only [processEntries] at h
    by_cases h1 : (lookupA (norm_id e0) fs).isSome = true
    · rw [if_pos h1] at h; exact ih fs e i h
    · rw [if_neg h1] at h
      by_cases h2 : text_matches (entryText e0) rules = true
      · rw [if_pos h2] at h
        rcases List.mem_cons.mp h with hhead | htail
        · have hi : i = norm_id e0 := (Prod.mk.injEq _ _ _ _ ▸ hhead).2
          subst hi
          exact Option.not_isSome_iff_eq_none.mp h1
        · exact lookupA_insertA_none (ih _ e i htail)
      · rw [if_neg h2] at h; exact ih fs e i h

theorem processEntries_covered (rules : Rules) (now : Int) (es : List Entry) :
    ∀ (fs : FeedSeen) (e : Entry), e ∈ es →
      (lookupA (norm_id e) (processEntries rules now es fs).1).isSome = true
        ∨ text_matches (entryText e) rules = false := by
  induction es with
  | nil => intro fs e h; simp at h
  | cons e0 rest ih =>
    intro fs e hmem
    simp only [processEntries]
    by_cases h1 : (lookupA (norm_id e0) fs).isSome = true
    · rw [if_pos h1]
      rcases List.mem_cons.mp hmem with he | he
      · subst he; exact Or.inl (processEntries_seen_mono rules now rest fs _ h1)
      · exact ih fs e he
    · rw [if_neg h1]
      by_cases h2 : text_matches (entryText e0) rules = true
      · rw [if_pos h2]
        rcases List.mem_cons.mp hmem with he | he
        · subst he
          exact Or.inl (processEntries_seen_mono rules now rest _ _
            (by rw [lookupA_insertA_self]; rfl))
        · exact ih _ e he
      · rw [if_neg h2]
        rcases List.mem_cons.mp hmem with he | he
        · subst he
          exact Or.inr (by
            cases hx : text_matches (entryText e) rules
            · rfl
            · exact absurd hx h2)
        · exact ih fs e he

theorem processEntries_nohits (rules : Rules) (now : Int) (es : List Entry) :
    ∀ fs : FeedSeen,
      (∀ e ∈ es, (lookupA (norm_id e) fs).isSome = true
        ∨ text_matches (entryText e) rules = false) →
      processEntries rules now es fs = (fs, []) := by
  induction es with
  | nil => intro fs _; simp [processEntries]
  | cons e0 rest ih =>
    intro fs hcov
    simp only [processEntries]
    by_cases h1 : (lookupA (norm_id e0) fs).isSome = true
    · rw [if_pos h1]
      exact ih fs (fun e he => hcov e (List.mem_cons_of_mem _ he))
    · rw [if_neg h1]
      rcases hcov e0 (List.mem_cons_self _ _) with hs | hm
      · exact absurd hs h1
      · rw [if_neg (by simp [hm])]
        exact ih fs (fun e he => hcov e (List.mem_cons_of_mem _ he))

/-! ### Feed-loop lemmas for src/rss_watcher.py -/

theorem insertA_getD_eq {α : Type} (k x : String) (v : α) (m : List (String × α)) (d : α) :
    (lookupA x (insertA k v m)).getD d =
      if x = k then v else (lookupA x m).getD d := by
  by_cases hx : x = k
  · subst hx; rw [lookupA_insertA_self, if_pos rfl]; rfl
  · rw [lookupA_insertA_ne hx, if_neg hx]

theorem processGo_seen_mono (rules : Rules) (now : Int) (feeds : List Feed) :
    ∀ (seen : List (String × FeedSeen)) (f k : String),
      (lookupA k ((lookupA f seen).getD [])).isSome = true →
      (lookupA k ((lookupA f (processGo rules now feeds seen).1).getD [])).isSome = true := by
  induction feeds with
  | nil => intro seen f k h; simpa [processGo] using h
  | cons f0 rest ih =>
    intro seen f k h
    simp only [processGo]
    cases hfe : f0.entries with
    | none => exact ih seen f k h
    | some es =>
      dsimp only
      by_cases he : es.isEmpty = true
      · rw [if_pos he]; exact ih seen f k h
      · rw [if_neg he]
        apply ih
        rw [insertA_getD_eq]
        by_cases hf : f = f0.url
        · rw [if_pos hf]
          subst hf
          exact processEntries_seen_mono rules now es _ k h
        · rw [if_neg hf]
          exact h

theorem processGo_step_none (rules : Rules) (now : Int) (f0url : String) (es : List Entry)
    (seen : List (String × FeedSeen)) (f k : String)
    (h : lookupA k ((lookupA f (insertA f0url
        (processEntries rules now es ((lookupA f0url seen).getD [])).1 seen)).getD []) = none) :
    lookupA k ((lookupA f seen).getD []) = none := by
  cases hh : lookupA k ((lookupA f seen).getD [])
  · rfl
  · exfalso
    have hs : (lookupA k ((lookupA f seen).getD [])).isSome = true := by rw [hh]; rfl
    have : (lookupA k ((lookupA f (insertA f0url
        (processEntries rules now es ((lookupA f0url seen).getD [])).1 seen)).getD [])).isSome
        = true := by
      rw [insertA_getD_eq]
      by_cases hf : f = f0url
      · rw [if_pos hf]
        subst hf
        exact processEntries_seen_mono rules now es _ k hs
      · rw [if_neg hf]; exact hs
    rw [h] at this
    exact absurd this (by simp)

theorem processGo_hits_fresh (rules : Rules) (now : Int) (feeds : List Feed) :
    ∀ (seen : List (String × FeedSeen)) (f : String) (e : Entry) (i : String),
      (f, e, i) ∈ (processGo rules now feeds seen).2 →
      lookupA i ((lookupA f seen).getD []) = none := by
  induction feeds with
  | nil => intro seen f e i h; simp [processGo] at h
  | cons f0 rest ih =>
    intro seen f e i h
    simp only [processGo] at h
    cases hfe : f0.entries with
    | none => rw [hfe] at h; exact ih seen f e i h
    | some es =>
      rw [hfe] at h
      dsimp only at h
      by_cases he : es.isEmpty = true
      · rw [if_pos he] at h; exact ih seen f e i h
      · rw [if_neg he] at h
        rcases List.mem_append.mp h with hmap | hnext
        · rcases List.mem_map.mp hmap with ⟨p, hp, heq⟩
          have hf : f0.url = f := (Prod.mk.injEq _ _ _ _ ▸ heq).1
          have hei : p = (e, i) := by
            have h2 := (Prod.mk.injEq _ _ _ _ ▸ heq).2
            have he1 : p.1 = e := (Prod.mk.injEq _ _ _ _ ▸ h2).1
            have he2 : p.2 = i := (Prod.mk.injEq _ _ _ _ ▸ h2).2
            cases p; simp only at he1 he2; simp [he1, he2]
          subst hf
          rw [hei] at hp
          exact processEntries_hits_fresh rules now es _ e i hp
        · exact processGo_step_none rules now f0.url es seen f i (ih _ f e i hnext)

theorem processGo_covered (rules : Rules) (now : Int) (feeds : List Feed) :
    ∀ (seen : List (String × FeedSeen)) (fd : Feed), fd ∈ feeds →
      ∀ es : List Entry, fd.entries = some es → ∀ e ∈ es,
      (lookupA (norm_id e) ((lookupA fd.url (processGo rules now feeds seen).1).getD [])).isSome
          = true
        ∨ text_matches (entryText e) rules = false := by
  induction feeds with
  | nil => intro seen fd h; simp at h
  | cons f0 rest ih =>
    intro seen fd hmem es hes e he
    simp only [processGo]
    cases hfe : f0.entries with
    | none =>
      rcases List.mem_cons.mp hmem with hd | hd
      · subst hd; rw [hfe] at hes; exact absurd hes (by simp)
      · exact ih seen fd hd es hes e he
    | some es0 =>
      dsimp only
      by_cases hemp : es0.isEmpty = true
      · rw [if_pos hemp]
        rcases List.mem_cons.mp hmem with hd | hd
        · subst hd
          rw [hfe] at hes
          have : es = es0 := by simpa using hes.symm
          subst this
          rw [List.isEmpty_iff] at hemp
          subst hemp
          simp at he
        · exact ih seen fd hd es hes e he
      · rw [if_neg hemp]
        rcases List.mem_cons.mp hmem with hd | hd
        · subst hd
          rw [hfe] at hes
          have : es = es0 := by simpa using hes.symm
          subst this
          rcases processEntries_covered rules now es ((lookupA fd.url seen).getD []) e he
            with hsome | hno
          · left
            apply processGo_seen_mono
            rw [insertA_getD_eq, if_pos rfl]
            exact hsome
          · exact Or.inr hno
        · exact ih _ fd hd es hes e he

theorem processGo_nohits (rules : Rules) (now : Int) (feeds : List Feed) :
    ∀ seen : List (String × FeedSeen),
      (∀ fd ∈ feeds, ∀ es : List Entry, fd.entries = some es → ∀ e ∈ es,
        (lookupA (norm_id e) ((lookupA fd.url seen).getD [])).isSome = true
          ∨ text_matches (entryText e) rules = false) →
      (processGo rules now feeds seen).2 = [] := by
  induction feeds with
  | nil => intro seen _; simp [processGo]
  | cons f0 rest ih =>
    intro seen hcov
    simp only [processGo]
    cases hfe : f0.entries with
    | none => exact ih seen (fun fd hd => hcov fd (List.mem_cons_of_mem _ hd))
    | some es0 =>
      dsimp only
      by_cases hemp : es0.isEmpty = true
      · rw [if_pos hemp]
        exact ih seen (fun fd hd => hcov fd (List.mem_cons_of_mem _ hd))
      · rw [if_neg hemp]
        have hbase := processEntries_nohits rules now es0 ((lookupA f0.url seen).getD [])
          (fun e he => hcov f0 (List.mem_cons_self _ _) es0 hfe e he)
        rw [hbase]
        simp only [List.map_nil, List.nil_append]
        apply ih
        intro fd hd es hes e he
        rw [insertA_getD_eq]
        by_cases hf : fd.url = f0.url
        · rw [if_pos hf, ← hf]
          exact hcov fd (List.mem_cons_of_mem _ hd) es hes e he
        · rw [if_neg hf]
          exact hcov fd (List.mem_cons_of_mem _ hd) es hes e he

/-! ### Per-entry verdict characterizations for src/rss_watcher_fast.py -/

theorem fastEntryVerdict_eq_skippedSeen (rules : Rules) (cutoff : Int) (e : Entry)
    (fs : FeedSeen) :
    fastEntryVerdict rules cutoff e fs = .skippedSeen
      ↔ (lookupA (norm_id e) fs).isSome = true := by
  unfold fastEntryVerdict
  by_cases h1 : (lookupA (norm_id e) fs).isSome = true
  · simp [h1]
  · rw [if_neg h1]
    by_cases h2 : isOld e cutoff = true
    · simp [h2, h1]
    · rw [if_neg h2]
      by_cases h3 : text_matches (entryText e) rules = true <;> simp [h3, h1]

theorem fastEntryVerdict_eq_skippedOld (rules : Rules) (cutoff : Int) (e : Entry)
    (fs : FeedSeen) :
    fastEntryVerdict rules cutoff e fs = .skippedOld
      ↔ (lookupA (norm_id e) fs).isSome = false ∧ isOld e cutoff = true := by
  unfold fastEntryVerdict
  by_cases h1 : (lookupA (norm_id e) fs).isSome = true
  · simp [h1]
  · rw [if_neg h1]
    by_cases h2 : isOld e cutoff = true
    · simp [h2, h1]
    · rw [if_neg h2]
      by_cases h3 : text_matches (entryText e) rules = true <;> simp [h3, h2]

theorem fastEntryVerdict_eq_hit (rules : Rules) (cutoff : Int) (e : Entry) (fs : FeedSeen) :
    fastEntryVerdict rules cutoff e fs = .hit
      ↔ (lookupA (norm_id e) fs).isSome = false ∧ isOld e cutoff = false
          ∧ text_matches (entryText e) rules = true := by
  unfold fastEntryVerdict
  by_cases h1 : (lookupA (norm_id e) fs).isSome = true
  · simp [h1]
  · rw [if_neg h1]
    have h1f : (lookupA (norm_id e) fs).isSome = false := by
      cases hx : (lookupA (norm_id e) fs).isSome
      · rfl
      · exact absurd hx h1
    by_cases h2 : isOld e cutoff = true
    · simp [h2]
    · rw [if_neg h2]
      have h2f : isOld e cutoff = false := by
        cases hx : isOld e cutoff
        · rfl
        · exact absurd hx h2
      by_cases h3 : text_matches (entryText e) rules = true <;> simp [h3, h1f, h2f]

theorem fastEntryVerdict_eq_noMatch (rules : Rules) (cutoff : Int) (e : Entry) (fs : FeedSeen) :
    fastEntryVerdict rules cutoff e fs = .noMatch
      ↔ (lookupA (norm_id e) fs).isSome = false ∧ isOld e cutoff = false
          ∧ text_matches (entryText e) rules = false := by
  unfold fastEntryVerdict
  by_cases h1 : (lookupA (norm_id e) fs).isSome = true
  · simp [h1]
  · rw [if_neg h1]
    have h1f : (lookupA (norm_id e) fs).isSome = false := by
      cases hx : (lookupA (norm_id e) fs).isSome
      · rfl
      · exact absurd hx h1
    by_cases h2 : isOld e cutoff = true
    · simp [h2]
    · rw [if_neg h2]
      have h2f : isOld e cutoff = false := by
        cases hx : isOld e cutoff
        · rfl
        · exact absurd hx h2
      by_cases h3 : text_matches (entryText e) rules = true <;> simp [h3, h1f, h2f]

theorem isOld_mono {e : Entry} {c1 c2 : Int} (h : c1 ≤ c2) :
    isOld e c1 = true → isOld e c2 = true := by
  unfold isOld
  cases hp : e.publishedParsed with
  | none => intro hx; exact absurd hx (by simp)
  | some ts =>
    intro hx
    have : ts < c1 := by simpa using hx
    simpa using lt_of_lt_of_le this h

/-! ### Entry-loop lemmas for src/rss_watcher_fast.py -/

theorem fastProcessEntries_seen_mono (rules : Rules) (cutoff now : Int) (es : List Entry) :
    ∀ (fs : FeedSeen) (k : String), (lookupA k fs).isSome = true →
      (lookupA k (fastProcessEntries rules cutoff now es fs).1).isSome = true := by
  induction es with
  | nil => intro fs k h; simpa [fastProcessEntries] using h
  | cons e rest ih =>
    intro fs k h
    simp only [fastProcessEntries]
    cases hv : fastEntryVerdict rules cutoff e fs with
    | hit => exact ih _ k (lookupA_insertA_isSome_mono _ now h)
    | skippedSeen => exact ih fs k h
    | skippedOld => exact ih fs k h
    | noMatch => exact ih fs k h

theorem fastProcessEntries_covered (rules : Rules) (cutoff now : Int) (es : List Entry) :
    ∀ (fs : FeedSeen) (e : Entry), e ∈ es →
      (lookupA (norm_id e) (fastProcessEntries rules cutoff now es fs).1).isSome = true
        ∨ isOld e cutoff = true
        ∨ text_matches (entryText e) rules = false := by
  induction es with
  | nil => intro fs e h; simp at h
  | cons e0 rest ih =>
    intro fs e hmem
    simp only [fastProcessEntries]
    cases hv : fastEntryVerdict rules cutoff e0 fs with
    | skippedSeen =>
      rcases List.mem_cons.mp hmem with he | he
      · subst he
        exact Or.inl (fastProcessEntries_seen_mono rules cutoff now rest fs _
          ((fastEntryVerdict_eq_skippedSeen rules cutoff e fs).mp hv))
      · exact ih fs e he
    | skippedOld =>
      rcases List.mem_cons.mp hmem with he | he
      · subst he
        exact Or.inr (Or.inl ((fastEntryVerdict_eq_skippedOld rules cutoff e fs).mp hv).2)
      · exact ih fs e he
    | noMatch =>
      rcases List.mem_cons.mp hmem with he | he
      · subst he
        exact Or.inr (Or.inr ((fastEntryVerdict_eq_noMatch rules cutoff e fs).mp hv).2.2)
      · exact ih fs e he
    | hit =>
      rcases List.mem_cons.mp hmem with he | he
      · subst he
        exact Or.inl (fastProcessEntries_seen_mono rules cutoff now rest _ _
          (by rw [lookupA_insertA_self]; rfl))
      · exact ih _ e he

theorem fastProcessEntries_nohits (rules : Rules) (cutoff now : Int) (es : List Entry) :
    ∀ fs : FeedSeen,
      (∀ e ∈ es, (lookupA (norm_id e) fs).isSome = true
        ∨ isOld e cutoff = true
        ∨ text_matches (entryText e) rules = false) →
      fastProcessEntries rules cutoff now es fs = (fs, []) := by
  induction es with
  | nil => intro fs _; simp [fastProcessEntries]
  | cons e0 rest ih =>
    intro fs hcov
    simp only [fastProcessEntries]
    cases hv : fastEntryVerdict rules cutoff e0 fs with
    | hit =>
      exfalso
      rcases (fastEntryVerdict_eq_hit rules cutoff e0 fs).mp hv with ⟨hs, ho, hm⟩
      rcases hcov e0 (List.mem_cons_self _ _) with h | h | h
      · rw [hs] at h; exact absurd h (by simp)
      · rw [ho] at h; exact absurd h (by simp)
      · rw [hm] at h; exact absurd h (by simp)
    | skippedSeen => exact ih fs (fun e he => hcov e (List.mem_cons_of_mem _ he))
    | skippedOld => exact ih fs (fun e he => hcov e (List.mem_cons_of_mem _ he))
    | noMatch => exact ih fs (fun e he => hcov e (List.mem_cons_of_mem _ he))

/-! ### Merge-loop lemmas for src/rss_watcher_fast.py -/

theorem fastGo_seen_mono (parse : List Nat → Option (List Entry)) (rules : Rules)
    (cutoff now : Int) (results : List (String × String × List Nat × MetaDict)) :
    ∀ (seen : List (String × FeedSeen)) (cache : List (String × MetaDict)) (f k : String),
      (lookupA k ((lookupA f seen).getD [])).isSome = true →
      (lookupA k ((lookupA f (fastGo parse rules cutoff now results seen cache).1).getD
        [])).isSome = true := by
  induction results with
  | nil => intro seen cache f k h; simpa [fastGo] using h
  | cons r0 rest ih =>
    rcases r0 with ⟨orig, fu, content, meta⟩
    intro seen cache f k h
    simp only [fastGo]
    by_cases hc : content.isEmpty = true
    · rw [if_pos hc]; exact ih seen _ f k h
    · rw [if_neg hc]
      cases hp : parse content with
      | none => exact ih seen _ f k h
      | some es =>
        dsimp only
        by_cases hemp : es.isEmpty = true
        · rw [if_pos hemp]; exact ih seen _ f k h
        · rw [if_neg hemp]
          apply ih
          rw [insertA_getD_eq]
          by_cases hf : f = orig
          · rw [if_pos hf]
            subst hf
            exact fastProcessEntries_seen_mono rules cutoff now es _ k h
          · rw [if_neg hf]
            exact h

theorem fastGo_covered (parse : List Nat → Option (List Entry)) (rules : Rules)
    (cutoff now : Int) (results : List (String × String × List Nat × MetaDict)) :
    ∀ (seen : List (String × FeedSeen)) (cache : List (String × MetaDict))
      (r : String × String × List Nat × MetaDict), r ∈ results →
      r.2.2.1.isEmpty = false →
      ∀ es : List Entry, parse r.2.2.1 = some es → ∀ e ∈ es,
      (lookupA (norm_id e)
          ((lookupA r.1 (fastGo parse rules cutoff now results seen cache).1).getD
            [])).isSome = true
        ∨ isOld e cutoff = true
        ∨ text_matches (entryText e) rules = false := by
  induction results with
  | nil => intro seen cache r h; simp at h
  | cons r0 rest ih =>
    rcases r0 with ⟨orig, fu, content, meta⟩
    intro seen cache r hmem hcne es hes e he
    simp only [fastGo]
    by_cases hc : content.isEmpty = true
    · rw [if_pos hc]
      rcases List.mem_cons.mp hmem with hd | hd
      · subst hd; rw [hc] at hcne; exact absurd hcne (by simp)
      · exact ih seen _ r hd hcne es hes e he
    · rw [if_neg hc]
      cases hp : parse content with
      | none =>
        rcases List.mem_cons.mp hmem with hd | hd
        · subst hd
          dsimp only at hes
          rw [hes] at hp
          exact absurd hp (by simp)
        · exact ih seen _ r hd hcne es hes e he
      | some es0 =>
        dsimp only
        by_cases hemp : es0.isEmpty = true
        · rw [if_pos hemp]
          rcases List.mem_cons.mp hmem with hd | hd
          · subst hd
            dsimp only at hes
            rw [hes] at hp
            have : es = es0 := by simpa using hp
            subst this
            rw [List.isEmpty_iff] at hemp
            subst hemp
            simp at he
          · exact ih seen _ r hd hcne es hes e he
        · rw [if_neg hemp]
          rcases List.mem_cons.mp hmem with hd | hd
          · subst hd
            dsimp only at hes ⊢
            rw [hes] at hp
            have : es = es0 := by simpa using hp
            subst this
            rcases fastProcessEntries_covered rules cutoff now es
                ((lookupA orig seen).getD []) e he with hsome | hrest
            · left
              apply fastGo_seen_mono
              rw [insertA_getD_eq, if_pos rfl]
              exact hsome
            · exact Or.inr hrest
          · exact ih _ _ r hd hcne es hes e he

theorem fastGo_nohits (parse : List Nat → Option (List Entry)) (rules : Rules)
    (cutoff now : Int) (results : List (String × String × List Nat × MetaDict)) :
    ∀ (seen : List (String × FeedSeen)) (cache : List (String × MetaDict)),
      (∀ r ∈ results, r.2.2.1.isEmpty = false →
        ∀ es : List Entry, parse r.2.2.1 = some es → ∀ e ∈ es,
        (lookupA (norm_id e) ((lookupA r.1 seen).getD [])).isSome = true
          ∨ isOld e cutoff = true
          ∨ text_matches (entryText e) rules = false) →
      (fastGo parse rules cutoff now results seen cache).2.2 = [] := by
  induction results with
  | nil => intro seen cache _; simp [fastGo]
  | cons r0 rest ih =>
    rcases r0 with ⟨orig, fu, content, meta⟩
    intro seen cache hcov
    simp only [fastGo]
    by_cases hc : content.isEmpty = true
    · rw [if_pos hc]
      exact ih seen _ (fun r hd => hcov r (List.mem_cons_of_mem _ hd))
    · rw [if_neg hc]
      cases hp : parse content with
      | none => exact ih seen _ (fun r hd => hcov r (List.mem_cons_of_mem _ hd))
      | some es0 =>
        dsimp only
        by_cases hemp : es0.isEmpty = true
        · rw [if_pos hemp]
          exact ih seen _ (fun r hd => hcov r (List.mem_cons_of_mem _ hd))
        · rw [if_neg hemp]
          have hcne : content.isEmpty = false := by
            cases hx : content.isEmpty
            · rfl
            · exact absurd hx hc
          have hbase := fastProcessEntries_nohits rules cutoff now es0
            ((lookupA orig seen).getD [])
            (fun e he => hcov (orig, fu, content, meta) (List.mem_cons_self _ _) hcne es0 hp e he)
          rw [hbase]
          simp only [List.map_nil, List.nil_append]
          apply ih
          intro r hd hcne2 es hes e he
          rw [insertA_getD_eq]
          by_cases hf : r.1 = orig
          · rw [if_pos hf, ← hf]
            exact hcov r (List.mem_cons_of_mem _ hd) hcne2 es hes e he
          · rw [if_neg hf]
            exact hcov r (List.mem_cons_of_mem _ hd) hcne2 es hes e he

/-- Appending a fetch result with no content only commits its cache record:
seen state and hits are untouched. -/
theorem fastGo_append_empty (parse : List Nat → Option (List Entry)) (rules : Rules)
    (cutoff now : Int) (orig fu : String) (meta : MetaDict) :
    ∀ (results : List (String × String × List Nat × MetaDict))
      (seen : List (String × FeedSeen)) (cache : List (String × MetaDict)),
      fastGo parse rules cutoff now (results ++ [(orig, fu, [], meta)]) seen cache =
        ((fastGo parse rules cutoff now results seen cache).1,
          mergeCache (fastGo parse rules cutoff now results seen cache).2.1 orig meta,
          (fastGo parse rules cutoff now results seen cache).2.2) := by
  intro results
  induction results with
  | nil =>
    intro seen cache
    simp [fastGo]
  | cons r0 rest ih =>
    rcases r0 with ⟨o0, f0, c0, m0⟩
    intro seen cache
    rw [List.cons_append]
    simp only [fastGo]
    by_cases hc : c0.isEmpty = true
    · rw [if_pos hc, if_pos hc]; exact ih seen _
    · rw [if_neg hc, if_neg hc]
      cases hp : parse c0 with
      | none => exact ih seen _
      | some es0 =>
        dsimp only
        by_cases hemp : es0.isEmpty = true
        · rw [if_pos hemp, if_pos hemp]; exact ih seen _
        · rw [if_neg hemp, if_neg hemp, ih _ _]

/-- The merge loop touches only the seen and cache keys of the endpoints it
was handed. -/
theorem fastGo_other_keys (parse : List Nat → Option (List Entry)) (rules : Rules)
    (cutoff now : Int) (results : List (String × String × List Nat × MetaDict)) :
    ∀ (seen : List (String × FeedSeen)) (cache : List (String × MetaDict)) (x : String),
      (∀ r ∈ results, r.1 ≠ x) →
      lookupA x (fastGo parse rules cutoff now results seen cache).1 = lookupA x seen
        ∧ lookupA x (fastGo parse rules cutoff now results seen cache).2.1 = lookupA x cache := by
  induction results with
  | nil => intro seen cache x _; simp [fastGo]
  | cons r0 rest ih =>
    rcases r0 with ⟨orig, fu, content, meta⟩
    intro seen cache x hne
    have hox : orig ≠ x := hne (orig, fu, content, meta) (List.mem_cons_self _ _)
    have hxo : x ≠ orig := fun h => hox h.symm
    have hcache : lookupA x (mergeCache cache orig meta) = lookupA x cache := by
      unfold mergeCache
      rw [lookupA_insertA_ne hxo]
    simp only [fastGo]
    by_cases hc : content.isEmpty = true
    · rw [if_pos hc]
      have := ih seen (mergeCache cache orig meta) x
        (fun r hd => hne r (List.mem_cons_of_mem _ hd))
      rw [hcache] at this
      exact this
    · rw [if_neg hc]
      cases hp : parse content with
      | none =>
        have := ih seen (mergeCache cache orig meta) x
          (fun r hd => hne r (List.mem_cons_of_mem _ hd))
        rw [hcache] at this
        exact this
      | some es0 =>
        dsimp only
        by_cases hemp : es0.isEmpty = true
        · rw [if_pos hemp]
          have := ih seen (mergeCache cache orig meta) x
            (fun r hd => hne r (List.mem_cons_of_mem _ hd))
          rw [hcache] at this
          exact this
        · rw [if_neg hemp]
          have := ih (insertA orig (fastProcessEntries rules cutoff now es0
              ((lookupA orig seen).getD [])).1 seen) (mergeCache cache orig meta) x
            (fun r hd => hne r (List.mem_cons_of_mem _ hd))
          rw [hcache, lookupA_insertA_ne hxo] at this
          exact this

/-- The content bytes a fetch returns depend only on the server's answer,
never on the cache contents or the clock. -/
theorem fetch_content_eq (u : String) (c1 c2 : List (String × MetaDict)) (r : ServerResp)
    (n1 n2 : Int) :
    (fetch_feed u c1 r n1).2.1 = (fetch_feed u c2 r n2).2.1 := by
  cases r <;> rfl

/-! ### Pruning and dict-merge helpers -/

theorem pruneFeed_remove_reason (cutoff : Int) (cap : Nat) (fs : FeedSeen) (fp : String)
    (v : Int) (hv : lookupA fp fs = some v)
    (hnone : lookupA fp (pruneFeed cutoff cap fs) = none) :
    v < cutoff ∨ cap < (fs.filter (fun kv => decide (cutoff ≤ kv.2))).length := by
  by_cases hlen : cap < (fs.filter (fun kv => decide (cutoff ≤ kv.2))).length
  · exact Or.inr hlen
  · left
    simp only [pruneFeed] at hnone
    rw [if_neg hlen] at hnone
    by_contra hge
    push_neg at hge
    have hmem : (fp, v) ∈ fs := lookupA_eq_some_mem hv
    have hmemf : (fp, v) ∈ fs.filter (fun kv => decide (cutoff ≤ kv.2)) :=
      List.mem_filter.mpr ⟨hmem, by simpa using hge⟩
    exact lookupA_eq_none_not_mem hnone v hmemf

theorem keys_nodup_eq_of_mem {α : Type} {m : List (String × α)}
    (hnd : (m.map Prod.fst).Nodup) {p q : String × α} (hp : p ∈ m) (hq : q ∈ m)
    (hk : p.1 = q.1) : p = q := by
  induction m with
  | nil => simp at hp
  | cons r rest ih =>
    simp only [List.map_cons, List.nodup_cons] at hnd
    rcases List.mem_cons.mp hp with hp1 | hp1 <;> rcases List.mem_cons.mp hq with hq1 | hq1
    · rw [hp1, hq1]
    · exfalso
      apply hnd.1
      rw [hp1] at hk
      rw [hk]
      exact List.mem_map_of_mem Prod.fst hq1
    · exfalso
      apply hnd.1
      rw [hq1] at hk
      rw [← hk]
      exact List.mem_map_of_mem Prod.fst hp1
    · exact ih hnd.2 hp1 hq1

theorem insertA_self_of_mem {α : Type} {m : List (String × α)}
    (hnd : (m.map Prod.fst).Nodup) {k : String} {v : α} (hmem : (k, v) ∈ m) :
    insertA k v m = m := by
  unfold insertA
  rw [if_pos (lookupA_isSome_of_mem hmem)]
  have hcong : m.map (fun p => if p.1 == k then (k, v) else p) = m.map id := by
    apply List.map_congr_left
    intro p hp
    by_cases hpk : (p.1 == k) = true
    · rw [if_pos hpk]
      have : p = (k, v) := keys_nodup_eq_of_mem hnd hp hmem (by simpa using hpk)
      simp [this]
    · rw [if_neg hpk]; rfl
  rw [hcong, List.map_id]

theorem dictMerge_self {m : MetaDict} (hnd : (m.map Prod.fst).Nodup) :
    dictMerge m m = m := by
  unfold dictMerge
  have key : ∀ l : MetaDict, (∀ p ∈ l, p ∈ m) →
      l.foldl (fun acc kv => insertA kv.1 kv.2 acc) m = m := by
    intro l
    induction l with
    | nil => intro _; rfl
    | cons p rest ih =>
      intro hsub
      rw [List.foldl_cons]
      have h1 : insertA p.1 p.2 m = m :=
        insertA_self_of_mem hnd (by simpa using hsub p (List.mem_cons_self _ _))
      rw [h1]
      exact ih (fun q hq => hsub q (List.mem_cons_of_mem _ hq))
  exact key m (fun p hp => hp)

theorem dictMerge_pair (old : MetaDict) (k1 k2 : String) (v1 v2 : JVal) :
    dictMerge old [(k1, v1), (k2, v2)] = insertA k2 v2 (insertA k1 v1 old) := rfl

/-! ### First-contact marking lemmas for src/rss_watcher.py -/

theorem markEntries_stable (now : Int) (es : List Entry) :
    ∀ (fs : FeedSeen) (k : String), lookupA k fs = some now →
      lookupA k (markEntries now es fs) = some now := by
  induction es with
  | nil => intro fs k h; simpa [markEntries] using h
  | cons e rest ih =>
    intro fs k h
    simp only [markEntries, List.foldl_cons]
    apply ih
    by_cases hk : k = norm_id e
    · subst hk; rw [lookupA_insertA_self]
    · rw [lookupA_insertA_ne hk]; exact h

theorem markEntries_marks (now : Int) (es : List Entry) :
    ∀ (fs : FeedSeen) (e : Entry), e ∈ es →
      lookupA (norm_id e) (markEntries now es fs) = some now := by
  induction es with
  | nil => intro fs e h; simp at h
  | cons e0 rest ih =>
    intro fs e hmem
    simp only [markEntries, List.foldl_cons]
    rcases List.mem_cons.mp hmem with he | he
    · subst he
      have : lookupA (norm_id e) (insertA (norm_id e) now fs) = some now :=
        lookupA_insertA_self _ _ _
      exact markEntries_stable now rest _ _ this
    · exact ih _ e he

theorem initSeen_stable (feeds : List Feed) (now : Int) :
    ∀ (seen : List (String × FeedSeen)) (f fp : String),
      lookupA fp ((lookupA f seen).getD []) = some now →
      lookupA fp ((lookupA f (initSeen feeds now seen)).getD []) = some now := by
  induction feeds with
  | nil => intro seen f fp h; simpa [initSeen] using h
  | cons f0 rest ih =>
    intro seen f fp h
    simp only [initSeen, List.foldl_cons]
    cases hfe : f0.entries with
    | none => exact ih seen f fp h
    | some es =>
      dsimp only
      by_cases hemp : es.isEmpty = true
      · rw [if_pos hemp]; exact ih seen f fp h
      · rw [if_neg hemp]
        apply ih
        rw [insertA_getD_eq]
        by_cases hf : f = f0.url
        · rw [if_pos hf]
          subst hf
          exact markEntries_stable now es _ fp h
        · rw [if_neg hf]; exact h

theorem initSeen_marks (feeds : List Feed) (now : Int) :
    ∀ (seen : List (String × FeedSeen)) (fd : Feed), fd ∈ feeds →
      ∀ es : List Entry, fd.entries = some es → ∀ e ∈ es,
      lookupA (norm_id e) ((lookupA fd.url (initSeen feeds now seen)).getD []) = some now := by
  induction feeds with
  | nil => intro seen fd h; simp at h
  | cons f0 rest ih =>
    intro seen fd hmem es hes e he
    simp only [initSeen, List.foldl_cons]
    cases hfe : f0.entries with
    | none =>
      rcases List.mem_cons.mp hmem with hd | hd
      · subst hd; rw [hfe] at hes; exact absurd hes (by simp)
      · exact ih seen fd hd es hes e he
    | some es0 =>
      dsimp only
      by_cases hemp : es0.isEmpty = true
      · rw [if_pos hemp]
        rcases List.mem_cons.mp hmem with hd | hd
        · subst hd
          rw [hfe] at hes
          have : es = es0 := by simpa using hes.symm
          subst this
          rw [List.isEmpty_iff] at hemp
          subst hemp
          simp at he
        · exact ih seen fd hd es hes e he
      · rw [if_neg hemp]
        rcases List.mem_cons.mp hmem with hd | hd
        · subst hd
          rw [hfe] at hes
          have : es = es0 := by simpa using hes.symm
          subst this
          apply initSeen_stable
          rw [insertA_getD_eq, if_pos rfl]
          exact markEntries_marks now es _ e he
        · exact ih _ fd hd es hes e he

/-! ### The spec's per-entry order (for comparison with the code's order) -/

/-- Modelled from the spec: the per-entry order section 4.6 describes — the
age filter first, then the fingerprint dedup check, then the matcher. The
code's own order is `fastEntryVerdict`. -/
def specOrderVerdict (rules : Rules) (cutoff : Int) (e : Entry) (fs : FeedSeen) : EntryVerdict :=
  if isOld e cutoff then .skippedOld
  else if (lookupA (norm_id e) fs).isSome then .skippedSeen
  else if text_matches (entryText e) rules then .hit
  else .noMatch

/-- Modelled from the spec: the entry loop under the spec's order. -/
def specProcessEntries (rules : Rules) (cutoff now : Int) :
    List Entry → FeedSeen → FeedSeen × List (Entry × String)
  | [], fs => (fs, [])
  | e :: rest, fs =>
    match specOrderVerdict rules cutoff e fs with
    | .hit =>
      let step := specProcessEntries rules cutoff now rest (insertA (norm_id e) now fs)
      (step.1, (e, norm_id e) :: step.2)
    | _ => specProcessEntries rules cutoff now rest fs

theorem specOrderVerdict_hit_iff (rules : Rules) (cutoff : Int) (e : Entry) (fs : FeedSeen) :
    specOrderVerdict rules cutoff e fs = .hit ↔ fastEntryVerdict rules cutoff e fs = .hit := by
  unfold specOrderVerdict fastEntryVerdict
  by_cases h1 : (lookupA (norm_id e) fs).isSome = true
  · by_cases h2 : isOld e cutoff = true <;> simp [h1, h2]
  · by_cases h2 : isOld e cutoff = true
    · simp [h1, h2]
    · by_cases h3 : text_matches (entryText e) rules = true <;> simp [h1, h2, h3]

theorem fastProcessEntries_cons_hit (rules : Rules) (cutoff now : Int) (e : Entry)
    (rest : List Entry) (fs : FeedSeen) (h : fastEntryVerdict rules cutoff e fs = .hit) :
    fastProcessEntries rules cutoff now (e :: rest) fs =
      ((fastProcessEntries rules cutoff now rest (insertA (norm_id e) now fs)).1,
        (e, norm_id e) ::
          (fastProcessEntries rules cutoff now rest (insertA (norm_id e) now fs)).2) := by
  simp only [fastProcessEntries, h]

theorem fastProcessEntries_cons_not_hit (rules : Rules) (cutoff now : Int) (e : Entry)
    (rest : List Entry) (fs : FeedSeen) (h : fastEntryVerdict rules cutoff e fs ≠ .hit) :
    fastProcessEntries rules cutoff now (e :: rest) fs =
      fastProcessEntries rules cutoff now rest fs := by
  simp only [fastProcessEntries]

theorem specProcessEntries_cons_hit (rules : Rules) (cutoff now : Int) (e : Entry)
    (rest : List Entry) (fs : FeedSeen) (h : specOrderVerdict rules cutoff e fs = .hit) :
    specProcessEntries rules cutoff now (e :: rest) fs =
      ((specProcessEntries rules cutoff now rest (insertA (norm_id e) now fs)).1,
        (e, norm_id e) ::
          (specProcessEntries rules cutoff now rest (insertA (norm_id e) now fs)).2) := by
  simp only [specProcessEntries, h]

theorem specProcessEntries_cons_not_hit (rules : Rules) (cutoff now : Int) (e : Entry)
    (rest : List Entry) (fs : FeedSeen) (h : specOrderVerdict rules cutoff e fs ≠ .hit) :
    specProcessEntries rules cutoff now (e :: rest) fs =
      specProcessEntries rules cutoff now rest fs := by
  simp only [specProcessEntries]

theorem fastProcessEntries_eq_specOrder (rules : Rules) (cutoff now : Int) :
    ∀ (es : List Entry) (fs : FeedSeen),
      fastProcessEntries rules cutoff now es fs = specProcessEntries rules cutoff now es fs := by
  intro es
  induction es with
  | nil => intro fs; rfl
  | cons e rest ih =>
    intro fs
    by_cases hv : fastEntryVerdict rules cutoff e fs = .hit
    · rw [fastProcessEntries_cons_hit rules cutoff now e rest fs hv,
        specProcessEntries_cons_hit rules cutoff now e rest fs
          ((specOrderVerdict_hit_iff rules cutoff e fs).mpr hv), ih]
    · rw [fastProcessEntries_cons_not_hit rules cutoff now e rest fs hv,
        specProcessEntries_cons_not_hit rules cutoff now e rest fs
          (fun hs => hv ((specOrderVerdict_hit_iff rules cutoff e fs).mp hs)), ih]

/-! ### Rule-compilation lemmas -/

theorem parse_rules_homomorphic (l1 l2 : List String) :
    parse_rules (l1 ++ l2) = parse_rules l1 ++ parse_rules l2 := by
  have key : ∀ (l : List String) (init : Rules),
      l.foldl (fun rules raw => rules ++ lineContribution raw) init
        = init ++ l.foldl (fun rules raw => rules ++ lineContribution raw) [] := by
    intro l
    induction l with
    | nil => intro init; simp
    | cons r rest ih =>
      intro init
      simp only [List.foldl_cons, List.nil_append]
      rw [ih, ih (lineContribution r), List.append_assoc]
  unfold parse_rules
  rw [List.foldl_append, key l2]

theorem lineClauseAux_and_skip {t : String} (ht : isOpAND t = true) :
    ∀ (ts1 ts2 : List String) (c : List AndGroup) (g : AndGroup),
      lineClauseAux (ts1 ++ t :: ts2) c g = lineClauseAux (ts1 ++ ts2) c g := by
  have hor : isOpOR t = false := by
    unfold isOpOR
    have hup : pyUpper t = "AND" := by simpa [isOpAND] using ht
    simp [hup]
  intro ts1
  induction ts1 with
  | nil =>
    intro ts2 c g
    simp only [List.nil_append, lineClauseAux, hor, ht]
    simp
  | cons s rest ih =>
    intro ts2 c g
    simp only [List.cons_append, lineClauseAux]
    by_cases h1 : isOpOR s = true
    · rw [h1]
      by_cases h2 : g.isEmpty = true <;> simp [h2, ih]
    · have h1f : isOpOR s = false := by
        cases hx : isOpOR s
        · rfl
        · exact absurd hx h1
      rw [h1f]
      by_cases h2 : isOpAND s = true
      · rw [h2]; simp [ih]
      · have h2f : isOpAND s = false := by
          cases hx : isOpAND s
          · rfl
          · exact absurd hx h2
        rw [h2f]
        simp [ih]

theorem lineClauseAux_or_close {t : String} (ht : isOpOR t = true) (ts : List String)
    (c : List AndGroup) (g : AndGroup) (hg : g ≠ []) :
    lineClauseAux (t :: ts) c g = lineClauseAux ts (c ++ [g]) [] := by
  have hge : g.isEmpty = false := by
    cases g
    · exact absurd rfl hg
    · rfl
  simp [lineClauseAux, ht, hge]

theorem lineClauseAux_term {t : String} (h1 : isOpOR t = false) (h2 : isOpAND t = false)
    (ts : List String) (c : List AndGroup) (g : AndGroup) :
    lineClauseAux (t :: ts) c g =
      lineClauseAux ts c (g ++ [pyLower (stripQuotes t)]) := by
  simp [lineClauseAux, h1, h2]

theorem lineClauseAux_ne_nil :
    ∀ (ts : List String) (c : List AndGroup) (g : AndGroup),
      ((∃ t ∈ ts, isOpOR t = false ∧ isOpAND t = false) ∨ g ≠ [] ∨ c ≠ []) →
      lineClauseAux ts c g ≠ [] := by
  intro ts
  induction ts with
  | nil =>
    intro c g hyp
    rcases hyp with ⟨t, ht, -⟩ | hg | hc
    · simp at ht
    · have hge : g.isEmpty = false := by
        cases g
        · exact absurd rfl hg
        · rfl
      simp [lineClauseAux, hge]
    · simp only [lineClauseAux]
      by_cases hg2 : g.isEmpty = true
      · rw [if_pos hg2]; exact hc
      · rw [if_neg hg2]; simp
  | cons s rest ih =>
    intro c g hyp
    simp only [lineClauseAux]
    by_cases h1 : isOpOR s = true
    · rw [h1]
      by_cases h2 : g.isEmpty = true
      · simp only [h2, if_true, if_pos rfl]
        apply ih
        rcases hyp with ⟨t, ht, hto⟩ | hg | hc
        · rcases List.mem_cons.mp ht with he | he
          · exfalso; rw [he] at hto; rw [h1] at hto; exact absurd hto.1 (by simp)
          · exact Or.inl ⟨t, he, hto⟩
        · exfalso; rw [List.isEmpty_iff] at h2; exact hg h2
        · exact Or.inr (Or.inr hc)
      · simp only [h2, if_false, if_neg (by simpa using h2)]
        apply ih
        exact Or.inr (Or.inr (by simp))
    · have h1f : isOpOR s = false := by
        cases hx : isOpOR s
        · rfl
        · exact absurd hx h1
      rw [h1f]
      by_cases h2 : isOpAND s = true
      · rw [h2]
        simp only [Bool.false_eq_true, if_false, if_true]
        apply ih
        rcases hyp with ⟨t, ht, hto⟩ | hg | hc
        · rcases List.mem_cons.mp ht with he | he
          · exfalso; rw [he] at hto; rw [h2] at hto; exact absurd hto.2 (by simp)
          · exact Or.inl ⟨t, he, hto⟩
        · exact Or.inr (Or.inl hg)
        · exact Or.inr (Or.inr hc)
      · have h2f : isOpAND s = false := by
          cases hx : isOpAND s
          · rfl
          · exact absurd hx h2
        rw [h2f]
        simp only [Bool.false_eq_true, if_false]
        apply ih
        exact Or.inr (Or.inl (by simp))

theorem pyIn_iff (n h : String) :
    pyIn n h = true ↔ ∃ l r, h.toList = l ++ n.toList ++ r :=
  containsChars_iff n.toList h.toList

/-! ### Claims -/

/-- C1: once a fingerprint is recorded as seen for a feed (mark_seen), the
dedup test is positive, no entry with that fingerprint is ever again
appended to that feed's match results by `process`, the fingerprint is still
recorded after the run, and eviction removes it only because its timestamp
fell before the retention cutoff or because the age-filtered remainder
exceeded the per-feed capacity cap. -/
theorem C1_dedup_permanence (feeds : List Feed) (rules : Rules) (st : WatchState)
    (now cutoff : Int) (cap : Nat) (f fp : String) (T : Int)
    (h : lookupA fp ((lookupA f st.seen).getD []) = some T) :
    (lookupA fp ((lookupA f st.seen).getD [])).isSome = true
    ∧ (∀ e : Entry, (f, e, fp) ∉ (process feeds rules st now).2)
    ∧ (lookupA fp ((lookupA f (process feeds rules st now).1.seen).getD [])).isSome = true
    ∧ (∀ v : Int,
        lookupA fp ((lookupA f (process feeds rules st now).1.seen).getD []) = some v →
        lookupA fp (pruneFeed cutoff cap
          ((lookupA f (process feeds rules st now).1.seen).getD [])) = none →
        v < cutoff
          ∨ cap < (((lookupA f (process feeds rules st now).1.seen).getD []).filter
              (fun kv => decide (cutoff ≤ kv.2))).length)
    ∧ (∀ fs : FeedSeen, lookupA f (process feeds rules st now).1.seen = some fs →
        lookupA f (prune_state cutoff cap (process feeds rules st now).1).seen
          = some (pruneFeed cutoff cap fs)) := by
  have hs : (lookupA fp ((lookupA f st.seen).getD [])).isSome = true := by rw [h]; rfl
  refine ⟨hs, ?_, ?_, ?_, ?_⟩
  · intro e hmem
    have := processGo_hits_fresh rules now feeds st.seen f e fp hmem
    rw [h] at this
    exact absurd this (by simp)
  · exact processGo_seen_mono rules now feeds st.seen f fp hs
  · intro v hv hnone
    exact pruneFeed_remove_reason cutoff cap _ fp v hv hnone
  · intro fs hfs
    show lookupA f ((process feeds rules st now).1.seen.map
      (fun p => (p.1, pruneFeed cutoff cap p.2))) = _
    rw [lookupA_map_snd, hfs]
    rfl

theorem C1_dedup_permanence_witness :
    lookupA "x" ((lookupA "u"
        ((WatchState.mk [("u", [("x", (5 : Int))])] 0).seen)).getD []) = some 5
    ∧ (lookupA "x" ((lookupA "u"
        (process [] [] (WatchState.mk [("u", [("x", (5 : Int))])] 0) 9).1.seen).getD
          [])).isSome = true :=
  ⟨by decide,
    (C1_dedup_permanence [] [] (WatchState.mk [("u", [("x", (5 : Int))])] 0)
      9 0 3 "u" "x" 5 (by decide)).2.2.1⟩

/-- C2: running the pipeline a second time on the state produced by the
first run, with the fetched content (server answers) and the external
parser unchanged, yields no new matches — for both the plain `process`
pipeline and the fetch-merge pipeline of `main_async` (whose age cutoff can
only move forward between runs). -/
theorem C2_idempotent :
    (∀ (feeds : List Feed) (rules : Rules) (st : WatchState) (now now2 : Int),
      (process feeds rules (process feeds rules st now).1 now2).2 = [])
    ∧ (∀ (feeds : List String) (respOf : String → ServerResp)
        (parse : List Nat → Option (List Entry)) (rules : Rules) (st : WatchState)
        (cache cache2 : List (String × MetaDict)) (now now2 cutoff cutoff2 : Int),
        cutoff ≤ cutoff2 →
        (main_async feeds respOf parse rules
          (main_async feeds respOf parse rules st cache now cutoff).1 cache2 now2 cutoff2).2.2
          = []) := by
  constructor
  · intro feeds rules st now now2
    show (processGo rules now2 feeds (processGo rules now feeds st.seen).1).2 = []
    apply processGo_nohits
    intro fd hd es hes e he
    exact processGo_covered rules now feeds st.seen fd hd es hes e he
  · intro feeds respOf parse rules st cache cache2 now now2 cutoff cutoff2 hcc
    show (fastGo parse rules cutoff2 now2
        (feeds.map (fun u => (u, fetch_feed u cache2 (respOf u) now2)))
        (fastGo parse rules cutoff now
          (feeds.map (fun u => (u, fetch_feed u cache (respOf u) now))) st.seen cache).1
        cache2).2.2 = []
    apply fastGo_nohits
    intro r hr hcne es hes e he
    rcases List.mem_map.mp hr with ⟨u, hu, hr_eq⟩
    have hce : (fetch_feed u cache2 (respOf u) now2).2.1
        = (fetch_feed u cache (respOf u) now).2.1 :=
      fetch_content_eq u cache2 cache (respOf u) now2 now
    have hr1 : (u, fetch_feed u cache (respOf u) now)
        ∈ feeds.map (fun v => (v, fetch_feed v cache (respOf v) now)) :=
      List.mem_map_of_mem _ hu
    have hcne1 : (fetch_feed u cache (respOf u) now).2.1.isEmpty = false := by
      rw [← hce]
      rw [← hr_eq] at hcne
      exact hcne
    have hes1 : parse (fetch_feed u cache (respOf u) now).2.1 = some es := by
      rw [← hce]
      rw [← hr_eq] at hes
      exact hes
    have hcov := fastGo_covered parse rules cutoff now
      (feeds.map (fun v => (v, fetch_feed v cache (respOf v) now))) st.seen cache
      (u, fetch_feed u cache (respOf u) now) hr1 hcne1 es hes1 e he
    rw [← hr_eq]
    rcases hcov with hsome | hold | hnom
    · exact Or.inl hsome
    · exact Or.inr (Or.inl (isOld_mono hcc hold))
    · exact Or.inr (Or.inr hnom)

theorem C2_idempotent_witness :
    ((0 : Int) ≤ 1)
    ∧ (main_async ["u"] (fun _ => .netError "t") (fun _ => none) []
        (main_async ["u"] (fun _ => .netError "t") (fun _ => none) []
          (WatchState.mk [] 0) [] 5 0).1 [] 6 1).2.2 = [] :=
  ⟨by decide,
    C2_idempotent.2 ["u"] (fun _ => .netError "t") (fun _ => none) []
      (WatchState.mk [] 0) [] [] 5 6 0 1 (by decide)⟩

/-- C3 counterexample: the claim's biconditional fails for the empty rule
set — `text_matches` returns true on an empty rule set although no clause
of the rule has any AndGroup at all. -/
theorem C3_matcher_counterexample :
    ¬ (text_matches "x" [] = true ↔ ∃ c ∈ ([] : Rules), ∃ g ∈ c,
        ∀ t ∈ g, ∃ l r, (pyLower "x").toList = l ++ t.toList ++ r) := by
  intro hiff
  have h1 : text_matches "x" [] = true := rfl
  rcases hiff.mp h1 with ⟨c, hc, -⟩
  simp at hc

/-- C3 (amended): for a non-empty rule set, `text_matches` lowercases the
text once and returns true iff some clause has some AndGroup whose every
term occurs as a plain substring of the lowercased text (an empty rule set
matches everything, handled separately by the spec); in particular the
compiled rules of the two sample lines match the sample text, and the
second rule alone rejects the text lacking one conjunct. -/
theorem C3_matcher (rules : Rules) (text : String) (hne : rules ≠ []) :
    (text_matches text rules = true ↔
      ∃ c ∈ rules, ∃ g ∈ c, ∀ t ∈ g, ∃ l r, (pyLower text).toList = l ++ t.toList ++ r)
    ∧ text_matches "Startup huy dong von AI"
        (parse_rules ["ai OR startup", "gia dau AND xang"]) = true
    ∧ text_matches "gia dau tang manh" (parse_rules ["gia dau AND xang"]) = false
    ∧ text_matches text [] = true := by
  refine ⟨?_, by decide, by decide, rfl⟩
  unfold text_matches
  rw [if_neg (by simpa using hne)]
  constructor
  · intro hm
    rcases List.any_eq_true.mp hm with ⟨c, hc, hcl⟩
    rcases List.any_eq_true.mp hcl with ⟨g, hg, hall⟩
    exact ⟨c, hc, g, hg,
      fun t ht => (pyIn_iff t (pyLower text)).mp (List.all_eq_true.mp hall t ht)⟩
  · rintro ⟨c, hc, g, hg, hall⟩
    exact List.any_eq_true.mpr ⟨c, hc, List.any_eq_true.mpr ⟨g, hg,
      List.all_eq_true.mpr (fun t ht => (pyIn_iff t (pyLower text)).mpr (hall t ht))⟩⟩

theorem C3_matcher_witness :
    ([[["a"]]] : Rules) ≠ []
    ∧ (text_matches "ab" [[["a"]]] = true ↔
        ∃ c ∈ ([[["a"]]] : Rules), ∃ g ∈ c,
          ∀ t ∈ g, ∃ l r, (pyLower "ab").toList = l ++ t.toList ++ r) :=
  ⟨by decide, (C3_matcher [[["a"]]] "ab" (by decide)).1⟩

/-- C4 counterexample: the per-entry order of `main_async` is not the
spec's order — on an entry that is both already seen and too old, the code
reports the dedup skip (the dedup check runs first), while the claimed
order would report the age skip. -/
theorem C4_order_counterexample :
    fastEntryVerdict [] 10 (Entry.mk "e1" "" "" "" "" (some 0) "" "") [("e1", 0)]
        = .skippedSeen
    ∧ specOrderVerdict [] 10 (Entry.mk "e1" "" "" "" "" (some 0) "" "") [("e1", 0)]
        = .skippedOld
    ∧ fastEntryVerdict [] 10 (Entry.mk "e1" "" "" "" "" (some 0) "" "") [("e1", 0)]
        ≠ specOrderVerdict [] 10 (Entry.mk "e1" "" "" "" "" (some 0) "" "") [("e1", 0)] :=
  ⟨by decide, by decide, by decide⟩

/-- C4 (amended): for each parsed entry `main_async` checks the fingerprint
dedup first, then the age filter, then the matcher, appending the hit and
marking the fingerprint seen immediately on a match; this order differs
from the claimed age-filter-first order only in the two skip verdicts, and
the entry loop produces exactly the same hits and state as the spec's
order. -/
theorem C4_order (rules : Rules) (cutoff now : Int) (e : Entry) (fs : FeedSeen) :
    (fastEntryVerdict rules cutoff e fs = .skippedSeen
      ↔ (lookupA (norm_id e) fs).isSome = true)
    ∧ (fastEntryVerdict rules cutoff e fs = .skippedOld
      ↔ (lookupA (norm_id e) fs).isSome = false ∧ isOld e cutoff = true)
    ∧ (fastEntryVerdict rules cutoff e fs = .hit
      ↔ (lookupA (norm_id e) fs).isSome = false ∧ isOld e cutoff = false
          ∧ text_matches (entryText e) rules = true)
    ∧ (∀ es : List Entry, fastProcessEntries rules cutoff now es fs
        = specProcessEntries rules cutoff now es fs) :=
  ⟨fastEntryVerdict_eq_skippedSeen rules cutoff e fs,
   fastEntryVerdict_eq_skippedOld rules cutoff e fs,
   fastEntryVerdict_eq_hit rules cutoff e fs,
   fun es => fastProcessEntries_eq_specOrder rules cutoff now es fs⟩

/-- C5 counterexample: on a 304 answer the fetch returns the previously
cached record itself, so after the cache merge the fetched-at field still
holds its old value (100) rather than the fetch time (200) — the claimed
fetched-at update does not happen. -/
theorem C5_not_modified_counterexample :
    (fetch_feed "u" [("u", [("etag", JVal.s "E"), ("last_modified", JVal.s "L"),
        ("fetched_at", JVal.n 100), ("status", JVal.n 200)])] .notModified 200).2.1 = []
    ∧ lookupA "fetched_at" ((lookupA "u" (mergeCache
        [("u", [("etag", JVal.s "E"), ("last_modified", JVal.s "L"),
          ("fetched_at", JVal.n 100), ("status", JVal.n 200)])] "u"
        (fetch_feed "u" [("u", [("etag", JVal.s "E"), ("last_modified", JVal.s "L"),
          ("fetched_at", JVal.n 100), ("status", JVal.n 200)])] .notModified 200).2.2)).getD
          []) = some (JVal.n 100)
    ∧ JVal.n 100 ≠ JVal.n 200 :=
  ⟨rfl, by decide, by decide⟩

/-- C5 (amended): on a 304 answer no content bytes are returned, and after
the orchestrator merges the result the endpoint's cache record is entirely
unchanged — the validators keep their prior values and so does fetched-at
(the record keys are distinct in any record Python produced). -/
theorem C5_not_modified (url : String) (cache : List (String × MetaDict)) (now : Int)
    (hnd : (((lookupA url cache).getD []).map Prod.fst).Nodup) :
    (fetch_feed url cache .notModified now).2.1 = []
    ∧ ∀ k, lookupA k ((lookupA url (mergeCache cache url
        (fetch_feed url cache .notModified now).2.2)).getD [])
        = lookupA k ((lookupA url cache).getD []) := by
  constructor
  · rfl
  · intro k
    show lookupA k ((lookupA url (insertA url
        (dictMerge ((lookupA url cache).getD []) ((lookupA url cache).getD [])) cache)).getD [])
        = _
    rw [lookupA_insertA_self]
    simp only [Option.getD_some]
    rw [dictMerge_self hnd]

theorem C5_not_modified_witness :
    (((lookupA "u" ([("u", [("etag", JVal.s "E"), ("fetched_at", JVal.n 100)])]
        : List (String × MetaDict))).getD []).map Prod.fst).Nodup
    ∧ (fetch_feed "u" [("u", [("etag", JVal.s "E"), ("fetched_at", JVal.n 100)])]
        ServerResp.notModified 200).2.1 = [] :=
  ⟨by decide,
    (C5_not_modified "u" [("u", [("etag", JVal.s "E"), ("fetched_at", JVal.n 100)])] 200
      (by decide)).1⟩

/-- C6: when endpoint B's fetch fails with a network error while endpoint A
is also polled, the run completes with exactly A's matches, B's dedup state
is untouched, and B's cache record keeps every prior key (in particular its
validators) while gaining the error text and a fresh fetched-at stamp. -/
theorem C6_partial_failure (A B msg : String) (hAB : A ≠ B)
    (respOf : String → ServerResp) (hB : respOf B = .netError msg)
    (parse : List Nat → Option (List Entry)) (rules : Rules) (st : WatchState)
    (cache : List (String × MetaDict)) (now cutoff : Int) :
    (main_async [A, B] respOf parse rules st cache now cutoff).2.2
      = (main_async [A] respOf parse rules st cache now cutoff).2.2
    ∧ lookupA B (main_async [A, B] respOf parse rules st cache now cutoff).1.seen
      = lookupA B st.seen
    ∧ (∀ k, k ≠ "error" → k ≠ "fetched_at" →
        lookupA k ((lookupA B
            (main_async [A, B] respOf parse rules st cache now cutoff).2.1).getD [])
          = lookupA k ((lookupA B cache).getD []))
    ∧ lookupA "error" ((lookupA B
        (main_async [A, B] respOf parse rules st cache now cutoff).2.1).getD [])
      = some (JVal.s msg)
    ∧ lookupA "fetched_at" ((lookupA B
        (main_async [A, B] respOf parse rules st cache now cutoff).2.1).getD [])
      = some (JVal.n now) := by
  have hfetchB : fetch_feed B cache (respOf B) now
      = (B, [], [("error", JVal.s msg), ("fetched_at", JVal.n now)]) := by
    rw [hB]
    rfl
  have hgo : fastGo parse rules cutoff now
      [(A, fetch_feed A cache (respOf A) now), (B, fetch_feed B cache (respOf B) now)]
      st.seen cache
      = ((fastGo parse rules cutoff now
            [(A, fetch_feed A cache (respOf A) now)] st.seen cache).1,
         mergeCache (fastGo parse rules cutoff now
            [(A, fetch_feed A cache (respOf A) now)] st.seen cache).2.1 B
           [("error", JVal.s msg), ("fetched_at", JVal.n now)],
         (fastGo parse rules cutoff now
            [(A, fetch_feed A cache (respOf A) now)] st.seen cache).2.2) := by
    rw [hfetchB]
    exact fastGo_append_empty parse rules cutoff now B B
      [("error", JVal.s msg), ("fetched_at", JVal.n now)]
      [(A, fetch_feed A cache (respOf A) now)] st.seen cache
  have hother := fastGo_other_keys parse rules cutoff now
      [(A, fetch_feed A cache (respOf A) now)] st.seen cache B
      (by
        intro r hr
        rcases List.mem_cons.mp hr with h1 | h1
        · rw [h1]; exact hAB
        · simp at h1)
  have hcacheB : lookupA B (mergeCache (fastGo parse rules cutoff now
        [(A, fetch_feed A cache (respOf A) now)] st.seen cache).2.1 B
        [("error", JVal.s msg), ("fetched_at", JVal.n now)])
      = some (dictMerge ((lookupA B cache).getD [])
          [("error", JVal.s msg), ("fetched_at", JVal.n now)]) := by
    unfold mergeCache
    rw [lookupA_insertA_self, hother.2]
  refine ⟨?_, ?_, ?_, ?_, ?_⟩
  · show (fastGo parse rules cutoff now
        [(A, fetch_feed A cache (respOf A) now), (B, fetch_feed B cache (respOf B) now)]
        st.seen cache).2.2
      = (fastGo parse rules cutoff now
        [(A, fetch_feed A cache (respOf A) now)] st.seen cache).2.2
    rw [hgo]
  · show lookupA B (fastGo parse rules cutoff now
        [(A, fetch_feed A cache (respOf A) now), (B, fetch_feed B cache (respOf B) now)]
        st.seen cache).1 = lookupA B st.seen
    rw [hgo]
    exact hother.1
  · intro k hk1 hk2
    show lookupA k ((lookupA B (fastGo parse rules cutoff now
        [(A, fetch_feed A cache (respOf A) now), (B, fetch_feed B cache (respOf B) now)]
        st.seen cache).2.1).getD []) = _
    rw [hgo]
    show lookupA k ((lookupA B (mergeCache (fastGo parse rules cutoff now
        [(A, fetch_feed A cache (respOf A) now)] st.seen cache).2.1 B
        [("error", JVal.s msg), ("fetched_at", JVal.n now)])).getD []) = _
    rw [hcacheB]
    simp only [Option.getD_some]
    rw [dictMerge_pair, lookupA_insertA_ne hk2, lookupA_insertA_ne hk1]
  · show lookupA "error" ((lookupA B (fastGo parse rules cutoff now
        [(A, fetch_feed A cache (respOf A) now), (B, fetch_feed B cache (respOf B) now)]
        st.seen cache).2.1).getD []) = _
    rw [hgo]
    show lookupA "error" ((lookupA B (mergeCache (fastGo parse rules cutoff now
        [(A, fetch_feed A cache (respOf A) now)] st.seen cache).2.1 B
        [("error", JVal.s msg), ("fetched_at", JVal.n now)])).getD []) = _
    rw [hcacheB]
    simp only [Option.getD_some]
    rw [dictMerge_pair, lookupA_insertA_ne (by decide), lookupA_insertA_self]
  · show lookupA "fetched_at" ((lookupA B (fastGo parse rules cutoff now
        [(A, fetch_feed A cache (respOf A) now), (B, fetch_feed B cache (respOf B) now)]
        st.seen cache).2.1).getD []) = _
    rw [hgo]
    show lookupA "fetched_at" ((lookupA B (mergeCache (fastGo parse rules cutoff now
        [(A, fetch_feed A cache (respOf A) now)] st.seen cache).2.1 B
        [("error", JVal.s msg), ("fetched_at", JVal.n now)])).getD []) = _
    rw [hcacheB]
    simp only [Option.getD_some]
    rw [dictMerge_pair, lookupA_insertA_self]

theorem C6_partial_failure_witness :
    ("a" ≠ "b")
    ∧ lookupA "error" ((lookupA "b" (main_async ["a", "b"] (fun _ => .netError "t")
        (fun _ => none) [] (WatchState.mk [] 0) [] 7 0).2.1).getD [])
      = some (JVal.s "t") :=
  ⟨by decide,
    (C6_partial_failure "a" "b" "t" (by decide) (fun _ => .netError "t") rfl
      (fun _ => none) [] (WatchState.mk [] 0) [] 7 0).2.2.2.1⟩

/-- C7: after eviction, every feed retains at most the per-feed capacity
cap of fingerprints and none with a timestamp before the cutoff; when the
age-filtered remainder exceeds the cap, exactly the cap many entries
survive and every survivor's timestamp is at least every dropped entry's
timestamp (the newest win; eviction is a pure function of the map, so ties
break deterministically). -/
theorem C7_eviction (cutoff : Int) (cap : Nat) (st : WatchState) (f : String)
    (fs : FeedSeen) (h : lookupA f st.seen = some fs) :
    lookupA f (prune_state cutoff cap st).seen = some (pruneFeed cutoff cap fs)
    ∧ (pruneFeed cutoff cap fs).length ≤ cap
    ∧ (∀ kv ∈ pruneFeed cutoff cap fs, cutoff ≤ kv.2)
    ∧ (cap < (fs.filter (fun kv => decide (cutoff ≤ kv.2))).length →
        (pruneFeed cutoff cap fs).length = cap
        ∧ ∃ dropped : FeedSeen,
            (fs.filter (fun kv => decide (cutoff ≤ kv.2))).Perm
              (pruneFeed cutoff cap fs ++ dropped)
            ∧ ∀ x ∈ pruneFeed cutoff cap fs, ∀ y ∈ dropped, y.2 ≤ x.2) := by
  have htrans : ∀ a b c : String × Int,
      (fun x y : String × Int => decide (y.2 ≤ x.2)) a b →
      (fun x y : String × Int => decide (y.2 ≤ x.2)) b c →
      (fun x y : String × Int => decide (y.2 ≤ x.2)) a c := by
    intro a b c hab hbc
    simp only [decide_eq_true_eq] at hab hbc ⊢
    exact le_trans hbc hab
  have htotal : ∀ a b : String × Int,
      ((fun x y : String × Int => decide (y.2 ≤ x.2)) a b
        || (fun x y : String × Int => decide (y.2 ≤ x.2)) b a) = true := by
    intro a b
    simpa using Int.le_total _ _
  refine ⟨?_, ?_, ?_, ?_⟩
  · show lookupA f (st.seen.map (fun p => (p.1, pruneFeed cutoff cap p.2))) = _
    rw [lookupA_map_snd, h]
    rfl
  · simp only [pruneFeed]
    by_cases hlen : cap < (fs.filter (fun kv => decide (cutoff ≤ kv.2))).length
    · rw [if_pos hlen]
      simp only [List.length_take, List.length_mergeSort]
      omega
    · rw [if_neg hlen]
      omega
  · intro kv hkv
    simp only [pruneFeed] at hkv
    by_cases hlen : cap < (fs.filter (fun kv => decide (cutoff ≤ kv.2))).length
    · rw [if_pos hlen] at hkv
      have h1 : kv ∈ (fs.filter (fun kv => decide (cutoff ≤ kv.2))).mergeSort
          (fun x y : String × Int => decide (y.2 ≤ x.2)) := List.mem_of_mem_take hkv
      have h2 : kv ∈ fs.filter (fun kv => decide (cutoff ≤ kv.2)) :=
        List.mem_mergeSort.mp h1
      simpa using List.of_mem_filter h2
    · rw [if_neg hlen] at hkv
      simpa using List.of_mem_filter hkv
  · intro hlen
    have hsorted := List.sorted_mergeSort htrans htotal
      (fs.filter (fun kv => decide (cutoff ≤ kv.2)))
    have hperm := List.mergeSort_perm (fs.filter (fun kv => decide (cutoff ≤ kv.2)))
      (fun x y : String × Int => decide (y.2 ≤ x.2))
    have hsplit := List.take_append_drop cap
      ((fs.filter (fun kv => decide (cutoff ≤ kv.2))).mergeSort
        (fun x y : String × Int => decide (y.2 ≤ x.2)))
    constructor
    · simp only [pruneFeed]
      rw [if_pos hlen]
      simp only [List.length_take, List.length_mergeSort]
      omega
    · refine ⟨((fs.filter (fun kv => decide (cutoff ≤ kv.2))).mergeSort
        (fun x y : String × Int => decide (y.2 ≤ x.2))).drop cap, ?_, ?_⟩
      · simp only [pruneFeed]
        rw [if_pos hlen, hsplit]
        exact hperm.symm
      · intro x hx y hy
        simp only [pruneFeed] at hx
        rw [if_pos hlen] at hx
        rw [← hsplit] at hsorted
        have hcross := (List.pairwise_append.mp hsorted).2.2 x hx y hy
        simpa using hcross

theorem C7_eviction_witness :
    lookupA "u" (WatchState.mk [("u", [("a", (5 : Int)), ("b", 1), ("c", 9)])] 0).seen
      = some [("a", 5), ("b", 1), ("c", 9)]
    ∧ (pruneFeed 2 1 [("a", (5 : Int)), ("b", 1), ("c", 9)]).length ≤ 1 :=
  ⟨by decide,
    (C7_eviction 2 1 (WatchState.mk [("u", [("a", (5 : Int)), ("b", 1), ("c", 9)])] 0)
      "u" [("a", 5), ("b", 1), ("c", 9)] (by decide)).2.1⟩

/-- C8 counterexample: the line consisting of the single token AND is
non-empty after stripping and is not a comment, yet rule compilation turns
it into zero clauses rather than exactly one. -/
theorem C8_compile_counterexample :
    pyStrip "AND" ≠ "" ∧ startsHash (pyStrip "AND") = false ∧ parse_rules ["AND"] = [] :=
  ⟨by decide, by decide, by decide⟩

/-- C8 (amended): rule compilation is per-line (compiling concatenated line
lists concatenates the compiled rules); every non-empty, non-comment line
with at least one token other than AND/OR compiles to exactly one clause
(a line of only operator tokens compiles to none); within a line the token
AND is a no-op separator removable anywhere, OR closes the current
non-empty AndGroup and starts a new one, and every other token is appended
to the current group lowercased with surrounding quotes stripped; quoted
phrases are kept as single terms, as the concrete line with a quoted
two-word phrase shows. -/
theorem C8_compile :
    (∀ l1 l2 : List String, parse_rules (l1 ++ l2) = parse_rules l1 ++ parse_rules l2)
    ∧ (∀ raw : String, pyStrip raw ≠ "" → startsHash (pyStrip raw) = false →
        (∃ t ∈ lineTokens raw, isOpOR t = false ∧ isOpAND t = false) →
        (parse_rules [raw]).length = 1)
    ∧ (∀ t : String, isOpAND t = true →
        ∀ (ts1 ts2 : List String) (c : List AndGroup) (g : AndGroup),
        lineClauseAux (ts1 ++ t :: ts2) c g = lineClauseAux (ts1 ++ ts2) c g)
    ∧ (∀ t : String, isOpOR t = true →
        ∀ (ts : List String) (c : List AndGroup) (g : AndGroup), g ≠ [] →
        lineClauseAux (t :: ts) c g = lineClauseAux ts (c ++ [g]) [])
    ∧ (∀ t : String, isOpOR t = false → isOpAND t = false →
        ∀ (ts : List String) (c : List AndGroup) (g : AndGroup),
        lineClauseAux (t :: ts) c g = lineClauseAux ts c (g ++ [pyLower (stripQuotes t)]))
    ∧ parse_rules ["\"Gia Dau\" AND Xang OR AI"] = [[["gia dau", "xang"], ["ai"]]] := by
  refine ⟨parse_rules_homomorphic, ?_, ?_, ?_, ?_, by decide⟩
  · intro raw h1 h2 h3
    show ([] ++ lineContribution raw).length = 1
    rw [List.nil_append]
    have hcond : ((pyStrip raw == "") || startsHash (pyStrip raw)) = false := by
      rw [h2, Bool.or_false]
      exact beq_eq_false_iff_ne.mpr h1
    have hcl : lineClauseAux (lineTokens raw) [] [] ≠ [] :=
      lineClauseAux_ne_nil (lineTokens raw) [] [] (Or.inl h3)
    have hclb : (lineClauseAux (lineTokens raw) [] []).isEmpty = false := by
      cases hx : lineClauseAux (lineTokens raw) [] []
      · exact absurd hx hcl
      · rfl
    simp only [lineContribution, hcond, hclb, Bool.false_eq_true, if_false]
    rfl
  · intro t ht ts1 ts2 c g
    exact lineClauseAux_and_skip ht ts1 ts2 c g
  · intro t ht ts c g hg
    exact lineClauseAux_or_close ht ts c g hg
  · intro t h1 h2 ts c g
    exact lineClauseAux_term h1 h2 ts c g

theorem C8_compile_witness :
    (pyStrip "Xang" ≠ "" ∧ startsHash (pyStrip "Xang") = false
      ∧ (∃ t ∈ lineTokens "Xang", isOpOR t = false ∧ isOpAND t = false))
    ∧ (parse_rules ["Xang"]).length = 1 :=
  ⟨⟨by decide, by decide, ⟨"Xang", by decide, by decide, by decide⟩⟩,
    C8_compile.2.1 "Xang" (by decide) (by decide) ⟨"Xang", by decide, by decide, by decide⟩⟩

/-- C9: the age filter of `main_async` drops every entry whose publish time
parsed and lies strictly before the cutoff (such an entry can never reach
the matcher, so it is neither a hit nor a match miss), and an entry with no
parseable publish time is never dropped by age — if it also passes the
dedup check, its fate is decided by the matcher alone. -/
theorem C9_age_filter (rules : Rules) (cutoff : Int) (e : Entry) (fs : FeedSeen) :
    ((∃ ts : Int, e.publishedParsed = some ts ∧ ts < cutoff) →
      fastEntryVerdict rules cutoff e fs ≠ .hit
        ∧ fastEntryVerdict rules cutoff e fs ≠ .noMatch)
    ∧ (e.publishedParsed = none → fastEntryVerdict rules cutoff e fs ≠ .skippedOld)
    ∧ (e.publishedParsed = none → (lookupA (norm_id e) fs).isSome = false →
        fastEntryVerdict rules cutoff e fs
          = (if text_matches (entryText e) rules then .hit else .noMatch)) := by
  refine ⟨?_, ?_, ?_⟩
  · rintro ⟨ts, hts, hlt⟩
    have hold : isOld e cutoff = true := by simp [isOld, hts, hlt]
    constructor
    · intro hh
      rcases (fastEntryVerdict_eq_hit rules cutoff e fs).mp hh with ⟨-, ho, -⟩
      rw [hold] at ho
      exact absurd ho (by simp)
    · intro hh
      rcases (fastEntryVerdict_eq_noMatch rules cutoff e fs).mp hh with ⟨-, ho, -⟩
      rw [hold] at ho
      exact absurd ho (by simp)
  · intro hp hh
    have hold : isOld e cutoff = false := by simp [isOld, hp]
    rcases (fastEntryVerdict_eq_skippedOld rules cutoff e fs).mp hh with ⟨-, ho⟩
    rw [hold] at ho
    exact absurd ho (by simp)
  · intro hp hs
    unfold fastEntryVerdict
    rw [if_neg (by simp [hs]), if_neg (by simp [isOld, hp])]

theorem C9_age_filter_witness :
    ((Entry.mk "e1" "" "" "" "" none "" "").publishedParsed = none)
    ∧ (lookupA (norm_id (Entry.mk "e1" "" "" "" "" none "" "")) ([] : FeedSeen)).isSome
        = false
    ∧ fastEntryVerdict [] 10 (Entry.mk "e1" "" "" "" "" none "" "") []
        = (if text_matches (entryText (Entry.mk "e1" "" "" "" "" none "" "")) []
            then .hit else .noMatch) :=
  ⟨rfl, by decide,
    (C9_age_filter [] 10 (Entry.mk "e1" "" "" "" "" none "" "") []).2.2 rfl (by decide)⟩

/-- C10: on first contact (persisted last_run is 0) with the
STATE_INIT_IF_EMPTY flag enabled, the run records every entry of every
parseable feed as seen with the current timestamp, prunes and returns that
state with last_run stamped, and produces no notification — the matcher
branch of `main` is never reached. -/
theorem C10_init_if_empty (feeds : List Feed) (rules : Rules) (st : WatchState)
    (initFlag : Bool) (now cutoff : Int) (cap : Nat)
    (h0 : st.last_run = 0) (hf : initFlag = true) :
    mainRun feeds rules st initFlag now cutoff cap
      = (prune_state cutoff cap (WatchState.mk (initSeen feeds now st.seen) now), none)
    ∧ ∀ fd ∈ feeds, ∀ es : List Entry, fd.entries = some es → ∀ e ∈ es,
        lookupA (norm_id e) ((lookupA fd.url (initSeen feeds now st.seen)).getD [])
          = some now := by
  constructor
  · unfold mainRun
    rw [if_pos ⟨h0, hf⟩]
  · intro fd hd es hes e he
    exact initSeen_marks feeds now st.seen fd hd es hes e he

theorem C10_init_if_empty_witness :
    ((WatchState.mk [] 0).last_run = 0 ∧ (true : Bool) = true)
    ∧ mainRun [Feed.mk "u" (some [Entry.mk "e1" "" "" "" "" none "" ""])] []
        (WatchState.mk [] 0) true 5 0 10
      = (prune_state 0 10 (WatchState.mk
          (initSeen [Feed.mk "u" (some [Entry.mk "e1" "" "" "" "" none "" ""])] 5
            (WatchState.mk [] 0).seen) 5), none) :=
  ⟨⟨rfl, rfl⟩,
    (C10_init_if_empty [Feed.mk "u" (some [Entry.mk "e1" "" "" "" "" none "" ""])] []
      (WatchState.mk [] 0) true 5 0 10 rfl rfl).1⟩

end RSSW
